import Mathlib

/-!
Verification of the tfapp interactive Terraform plan viewer
(`internal/ui/plan/plan.go`): a shallow embedding of the diff-tree
builder (`parseTerraformPlanJSON`, `processAttributeDiffs`,
`addResourceAttributes`, `mapActionsToChangeType`, ...) and of the
navigator (`Model.Update` key handling, `ensureCursorVisible`,
`getVisibleNodes`, `expandAllNodes`, `collapseAllNodes`,
`getSearchResults`), together with theorems settling the frozen claims.

Conventions of the embedding:
* Go machine integers are modelled as `Int` (the code never overflows
  them); lengths/indices are converted with explicit guards that mirror
  the source's own bounds checks.
* Decoded JSON (`interface{}` after `json.Unmarshal`) is the inductive
  `JValue`; a Go `map[string]interface{}` is represented canonically as
  an association list with distinct keys (Go maps are unordered, and the
  source sorts keys before every traversal, so the representation order
  is irrelevant).  `reflect.DeepEqual` on decoded values is `JValue.jeq`.
* `TreeNode.Parent` back-pointers are not stored: in every tree the
  source builds, a node's `Parent` pointer is its structural parent (or
  a root node outside the returned forest, which never occurs in the
  visible list), so "jump to parent" is modelled by index paths.
-/

/-! ## String utilities (Go `strings` package semantics) -/

/-- Lexicographic (byte-wise, which for UTF-8 equals codepoint-wise)
comparison of character lists; models Go's `<=` on strings as used by
`sort.Strings`. -/
def lexLe : List Char → List Char → Bool
  | [], _ => true
  | _ :: _, [] => false
  | a :: as, b :: bs => a.toNat < b.toNat || (a.toNat = b.toNat && lexLe as bs)

/-- Go string ordering, as a decidable relation. -/
def strLe (a b : String) : Prop := lexLe a.toList b.toList = true

instance : DecidableRel strLe := fun a b => by unfold strLe; infer_instance

theorem lexLe_total (a b : List Char) : lexLe a b = true ∨ lexLe b a = true := by
  induction a generalizing b with
  | nil => left; rfl
  | cons x xs ih =>
    cases b with
    | nil => right; rfl
    | cons y ys =>
      simp only [lexLe, Bool.or_eq_true, Bool.and_eq_true, decide_eq_true_eq]
      rcases Nat.lt_trichotomy x.toNat y.toNat with h | h | h
      · left; left; exact h
      · rcases ih ys with h2 | h2
        · left; right; exact ⟨h, h2⟩
        · right; right; exact ⟨h.symm, h2⟩
      · right; left; exact h

theorem lexLe_trans {a b c : List Char} (h1 : lexLe a b = true) (h2 : lexLe b c = true) :
    lexLe a c = true := by
  induction a generalizing b c with
  | nil => rfl
  | cons x xs ih =>
    cases b with
    | nil => simp [lexLe] at h1
    | cons y ys =>
      cases c with
      | nil => simp [lexLe] at h2
      | cons z zs =>
        simp only [lexLe, Bool.or_eq_true, Bool.and_eq_true, decide_eq_true_eq] at h1 h2 ⊢
        rcases h1 with h1 | ⟨h1e, h1r⟩
        · rcases h2 with h2 | ⟨h2e, h2r⟩
          · left; omega
          · left; omega
        · rcases h2 with h2 | ⟨h2e, h2r⟩
          · left; omega
          · right; exact ⟨by omega, ih h1r h2r⟩

instance : IsTotal String strLe := ⟨fun a b => lexLe_total a.toList b.toList⟩

instance : IsTrans String strLe := ⟨fun _ _ _ => lexLe_trans⟩

/-- `sort.Strings` (ascending byte-wise sort). -/
def sortStrings (l : List String) : List String := List.insertionSort strLe l

/-- Does `hay` start with `need`?  Models `strings.HasPrefix`. -/
def hasPre : List Char → List Char → Bool
  | [], _ => true
  | _ :: _, [] => false
  | n :: ns, h :: hs => n = h && hasPre ns hs

/-- Does `hay` contain `need` as a contiguous substring?  Models
`strings.Contains`. -/
def containsChars (hay need : List Char) : Bool :=
  match hay with
  | [] => need.isEmpty
  | _ :: t => hasPre need hay || containsChars t need

/-- `strings.Contains s sub`. -/
def containsSub (s sub : String) : Bool := containsChars s.toList sub.toList

/-- `strings.HasPrefix s pre`. -/
def hasPreStr (s p : String) : Bool := hasPre p.toList s.toList

/-- Whitespace as recognised by Go's `unicode.IsSpace` (restricted to
Latin-1, which covers every character the claims exercise). -/
def goIsSpace (c : Char) : Bool :=
  c = ' ' || c = '\t' || c = '\n' || c = '\x0b' || c = '\x0c' || c = '\r' ||
    c.toNat = 0x85 || c.toNat = 0xA0

/-- `strings.TrimSpace` on a character list. -/
def trimChars (l : List Char) : List Char :=
  ((l.dropWhile goIsSpace).reverse.dropWhile goIsSpace).reverse

/-- `strings.TrimSpace`. -/
def goTrimSpace (s : String) : String := (trimChars s.toList).asString

/-- `strings.Split` with a single-character separator. -/
def splitOnChar (sep : Char) : List Char → List (List Char)
  | [] => [[]]
  | c :: cs =>
    if c = sep then [] :: splitOnChar sep cs
    else
      match splitOnChar sep cs with
      | [] => [[c]]
      | w :: ws => (c :: w) :: ws

/-- `strings.Join`. -/
def joinWith (sep : String) : List String → String
  | [] => ""
  | [x] => x
  | x :: xs => x ++ sep ++ joinWith sep xs

/-- `strings.IndexByte` (first index of `c`, `-1` when absent). -/
def idxOfChar (c : Char) : List Char → Int
  | [] => -1
  | x :: xs =>
    if x = c then 0
    else
      let r := idxOfChar c xs
      if r < 0 then -1 else r + 1

/-! ## Decoded JSON values (`interface{}` after `json.Unmarshal`) -/

/-- A decoded JSON value.  `obj` carries the canonical association-list
representation of a Go `map[string]interface{}` (distinct keys; the
map itself is unordered and the source sorts keys before every use, so
any fixed representation order is faithful).  Numbers are modelled as
integers: the inputs the claims exercise carry integral numbers, and no
claim depends on float formatting. -/
inductive JValue where
  | null
  | bool (b : Bool)
  | num (n : Int)
  | str (s : String)
  | arr (elems : List JValue)
  | obj (fields : List (String × JValue))

mutual
/-- `reflect.DeepEqual` on decoded JSON values. -/
def JValue.jeq : JValue → JValue → Bool
  | .null, .null => true
  | .bool a, .bool b => a = b
  | .num a, .num b => a = b
  | .str a, .str b => a = b
  | .arr a, .arr b => JValue.jeqList a b
  | .obj a, .obj b => JValue.jeqObj a b
  | _, _ => false
def JValue.jeqList : List JValue → List JValue → Bool
  | [], [] => true
  | a :: as, b :: bs => JValue.jeq a b && JValue.jeqList as bs
  | _, _ => false
def JValue.jeqObj : List (String × JValue) → List (String × JValue) → Bool
  | [], [] => true
  | (k1, v1) :: as, (k2, v2) :: bs => k1 = k2 && JValue.jeq v1 v2 && JValue.jeqObj as bs
  | _, _ => false
end

/-- Go map indexing `m[k]` on the association-list representation. -/
def lookupField : List (String × JValue) → String → Option JValue
  | [], _ => none
  | (k, v) :: fs, key => if k = key then some v else lookupField fs key

/-- `m[k].(string)` with the zero value `""` on failure. -/
def getStr (fields : List (String × JValue)) (key : String) : String :=
  match lookupField fields key with
  | some (.str s) => s
  | _ => ""

/-- Two-valued `m[k].(string)` (value and `ok`). -/
def getStrOk (fields : List (String × JValue)) (key : String) : String × Bool :=
  match lookupField fields key with
  | some (.str s) => (s, true)
  | _ => ("", false)

/-! ## The tree of plan nodes (`TreeNode`) -/

/-- The scalar fields of `TreeNode` (`plan.go:19`); `Children` is kept
separately so that the type is a nested inductive, and the `Parent`
back-pointer is dropped (see the header note). -/
structure NodeData where
  text : String
  depth : Int
  expanded : Bool
  ntype : String
  isRoot : Bool
  toggleable : Bool
  changeType : String
  previousAddress : String
  isDrifted : Bool
  actionReason : String

/-- Go zero values for every field, matching fields a composite literal
omits. -/
def NodeData.dflt : NodeData :=
  { text := "", depth := 0, expanded := false, ntype := "", isRoot := false,
    toggleable := false, changeType := "", previousAddress := "",
    isDrifted := false, actionReason := "" }

inductive TreeNode where
  | mk (data : NodeData) (children : List TreeNode)

def TreeNode.data : TreeNode → NodeData
  | .mk d _ => d

def TreeNode.children : TreeNode → List TreeNode
  | .mk _ cs => cs

@[simp] theorem TreeNode.data_mk (d : NodeData) (cs : List TreeNode) :
    (TreeNode.mk d cs).data = d := rfl

@[simp] theorem TreeNode.children_mk (d : NodeData) (cs : List TreeNode) :
    (TreeNode.mk d cs).children = cs := rfl

/-! ## Builder helpers -/

/-- `sliceContains` (`plan.go:1837`). -/
def sliceContains : List String → String → Bool
  | [], _ => false
  | x :: xs, s => x = s || sliceContains xs s

/-- `mapActionsToChangeType` (`plan.go:1793`). -/
def mapActionsToChangeType (actions : List String) : String :=
  if sliceContains actions "create" && sliceContains actions "delete" then "replace"
  else if sliceContains actions "create" then "create"
  else if sliceContains actions "delete" then "destroy"
  else if sliceContains actions "update" then "update"
  else if actions.length = 0 then "no-op"
  else joinWith "/" actions

/-- `getActionReasonDisplay` (`plan.go:1809`). -/
def getActionReasonDisplay (reason : String) : String :=
  if reason = "replace_because_tainted" then "tainted, so must be replaced"
  else if reason = "replace_because_cannot_update" then "cannot be updated in-place"
  else if reason = "replace_by_request" then "replacement requested"
  else if reason = "delete_because_no_resource_config" then "no resource configuration found"
  else if reason = "delete_because_no_module" then "containing module is gone"
  else if reason = "delete_because_wrong_repetition" then "wrong repetition mode"
  else if reason = "delete_because_count_index" then "count index out of range"
  else if reason = "delete_because_each_key" then "for_each key not found"
  else if reason = "read_because_config_unknown" then "configuration contains unknown values"
  else if reason = "read_because_dependency_pending" then "has pending dependent resources"
  else reason

/-- `getGrammaticalAction` (`plan.go:1847`). -/
def getGrammaticalAction (action : String) : String :=
  if action = "create" then "created"
  else if action = "update" then "updated"
  else if action = "replace" then "replaced"
  else if action = "destroy" then "destroyed"
  else if action = "move" then "moved"
  else action ++ "d"

/-- `getResourceNameFromAddress` (`plan.go:1726`); the `mode` and
`resourceType` parameters are unused in the source as well. -/
def getResourceNameFromAddress (address : String) (_mode _resourceType : String) : String :=
  let parts := splitOnChar '.' address.toList
  match parts.getLast? with
  | none => address
  | some lastPart =>
    let indexBracket := idxOfChar '[' lastPart
    if 0 < indexBracket then (lastPart.take indexBracket.toNat).asString
    else lastPart.asString

/-- `formatResourceDeclaration` (`plan.go:1742`). -/
def formatResourceDeclaration (_address resourceType changeType : String) : String :=
  if changeType = "create" then "+ resource \"" ++ resourceType ++ "\" \x7b"
  else if changeType = "destroy" then "- resource \"" ++ resourceType ++ "\" \x7b"
  else if changeType = "update" then "~ resource \"" ++ resourceType ++ "\" \x7b"
  else if changeType = "replace" then "-/+ resource \"" ++ resourceType ++ "\" \x7b"
  else "  resource \"" ++ resourceType ++ "\" \x7b"

/-- `formatAttributeValue` (`plan.go:2143`). -/
def formatAttributeValue (value : JValue) : String :=
  match value with
  | .null => "null"
  | .str s => "\"" ++ s ++ "\""
  | .obj _ => "\x7b...\x7d"
  | .arr _ => "[...]"
  | .bool b => if b then "true" else "false"
  | .num n => toString n

mutual
/-- Go `fmt.Sprintf("%v", value)` on a decoded JSON value (no quotes on
strings, `<nil>` for null). -/
def formatGoValue : JValue → String
  | .null => "<nil>"
  | .str s => s
  | .bool b => if b then "true" else "false"
  | .num n => toString n
  | .arr xs => "[" ++ joinWith " " (formatGoValueList xs) ++ "]"
  | .obj fs => "map[" ++ joinWith " " (formatGoValueObj fs) ++ "]"
def formatGoValueList : List JValue → List String
  | [] => []
  | x :: xs => formatGoValue x :: formatGoValueList xs
def formatGoValueObj : List (String × JValue) → List String
  | [] => []
  | (k, v) :: fs => (k ++ ":" ++ formatGoValue v) :: formatGoValueObj fs
end


/-! ## Attribute nodes for one-sided (create/destroy) resources
(`addResourceAttributes`, `plan.go:2161`)

The source collects the map's keys, sorts them, and walks them looking
each key up; on the canonical key-sorted representation of a decoded Go
map this is exactly the field order, so the embedding walks the fields
directly.  The per-value dispatch is split into `attrValue` /
`attrArrItem` so that the recursion is structural. -/

mutual
/-- The per-key body of `addResourceAttributes`'s loop (`plan.go:2179`). -/
def attrValue (key : String) (value : JValue) (pre : String) (depth : Int) :
    List TreeNode :=
  match value with
  | .null =>
    [.mk { NodeData.dflt with
           text := pre ++ " " ++ key ++ " = null"
           ntype := "attribute"
           depth := depth } []]
  | .obj m =>
    [.mk { NodeData.dflt with
           text := pre ++ " " ++ key ++ " \x7b"
           expanded := true
           ntype := "block"
           depth := depth
           toggleable := true }
       (attrFields m pre (depth + 1)),
     .mk { NodeData.dflt with
           text := "\x7d"
           ntype := "closing_brace"
           depth := depth } []]
  | .arr items => attrArrItems key items 0 pre depth
  | v =>
    let valueStr :=
      match v with
      | .str s => "\"" ++ s ++ "\""
      | _ => formatGoValue v
    [.mk { NodeData.dflt with
           text := pre ++ " " ++ key ++ " = " ++ valueStr
           ntype := "attribute"
           depth := depth } []]

/-- The key loop of `addResourceAttributes` (`plan.go:2179`). -/
def attrFields (fields : List (String × JValue)) (pre : String) (depth : Int) :
    List TreeNode :=
  match fields with
  | [] => []
  | (key, value) :: rest => attrValue key value pre depth ++ attrFields rest pre depth
  termination_by structural fields

/-- The array loop of `addResourceAttributes` (`plan.go:2221`). -/
def attrArrItems (key : String) (items : List JValue) (i : Nat) (pre : String)
    (depth : Int) : List TreeNode :=
  match items with
  | [] => []
  | item :: rest =>
    attrArrItem key item i pre depth ++ attrArrItems key rest (i + 1) pre depth

/-- One array item of `addResourceAttributes` (`plan.go:2222`). -/
def attrArrItem (key : String) (item : JValue) (i : Nat) (pre : String)
    (depth : Int) : List TreeNode :=
  match item with
  | .obj m =>
    [.mk { NodeData.dflt with
           text := pre ++ " " ++ key ++ " \x7b"
           expanded := true
           ntype := "block"
           depth := depth
           toggleable := true }
       (attrFields m pre (depth + 1)),
     .mk { NodeData.dflt with
           text := "\x7d"
           ntype := "closing_brace"
           depth := depth } []]
  | _ =>
    [.mk { NodeData.dflt with
           text := pre ++ " " ++ key ++ "[" ++ toString i ++ "] = " ++
             formatGoValue item
           ntype := "attribute"
           depth := depth } []]
end

/-- `addResourceAttributes` (`plan.go:2161`): emit one node (or block)
per attribute, all with the given `+`/`-` prefix; nil and non-map
inputs yield nothing. -/
def addResourceAttributes (attributes : JValue) (pre : String) (depth : Int) :
    List TreeNode :=
  match attributes with
  | .obj attrMap => attrFields attrMap pre depth
  | _ => []

/-! ## Attribute diffs for update/replace resources
(`processAttributeDiffs`, `plan.go:1865`) -/

/-- The `unusedCount` loop of `processAttributeDiffs` (`plan.go:2118`):
the number of keys present in both maps whose values are
`reflect.DeepEqual`.  (The source iterates the sorted key union; keys
present in both are exactly the before-map's keys that the after map
also has, so walking the before fields is equivalent.) -/
def unchangedKeyCount (bf af : List (String × JValue)) : Nat :=
  match bf with
  | [] => 0
  | (k, vb) :: rest =>
    (match lookupField af k with
     | some va => if vb.jeq va then 1 else 0
     | none => 0) + unchangedKeyCount rest af

/-- Per-key node chunks for keys present only in the after map
(`plan.go:1916`: `addResourceAttributes` with prefix `+`). -/
def addedChunks (af bf : List (String × JValue)) (depth : Int) :
    List (String × List TreeNode) :=
  match af with
  | [] => []
  | (k, va) :: rest =>
    (match lookupField bf k with
     | some _ => []
     | none => [(k, addResourceAttributes (.obj [(k, va)]) "+" depth)]) ++
    addedChunks rest bf depth

/-- The tail of the array-diff loop once the before slice is exhausted
(`plan.go:1979`): `beforeItem` stays `nil`, so the map type assertion
at `plan.go:1989` fails and every non-equal trailing item — object
items included — takes the else branch at `plan.go:2017` and produces
the update leaf `~ [i] = null -> <after>`. -/
def arrTailItems (items : List JValue) (i : Nat) (depth : Int) : List TreeNode :=
  match items with
  | [] => []
  | a :: rest =>
    (if JValue.jeq .null a then []
     else
       [.mk { NodeData.dflt with
              text := "~ [" ++ toString i ++ "] = " ++
                formatAttributeValue .null ++ " -> " ++ formatAttributeValue a
              ntype := "attribute"
              depth := depth + 1
              changeType := "update" } []]) ++
    arrTailItems rest (i + 1) depth

/-- The update-leaf for a simple changed value (`plan.go:2047`),
including the "(known after apply)" special case (which, because
`formatAttributeValue` quotes strings, fires exactly when the after
value is the string `"(known after apply)"`). -/
def simpleChangedNode (key : String) (bv av : JValue) (depth : Int) : TreeNode :=
  let beforeStr := formatAttributeValue bv
  let isKnownAfterApply : Bool :=
    match av with
    | .str s => s = "(known after apply)"
    | _ => false
  if isKnownAfterApply then
    .mk { NodeData.dflt with
          text := "~ " ++ key ++ " = " ++ beforeStr ++ " -> (known after apply)"
          ntype := "attribute"
          depth := depth
          changeType := "update" } []
  else
    .mk { NodeData.dflt with
          text := "~ " ++ key ++ " = " ++ beforeStr ++ " -> " ++
            formatAttributeValue av
          ntype := "attribute"
          depth := depth
          changeType := "update" } []

/-- The unchanged-nested-block nodes (`plan.go:2080`): a collapsed block
with a single `# (unchanged block hidden)` comment child, plus its
closing brace. -/
def unchangedBlockNodes (key : String) (depth : Int) : List TreeNode :=
  [.mk { NodeData.dflt with
         text := "  " ++ key ++ " \x7b"
         ntype := "block"
         depth := depth
         toggleable := true }
     [.mk { NodeData.dflt with
            text := "# (unchanged block hidden)"
            ntype := "comment"
            depth := depth + 1 } []],
   .mk { NodeData.dflt with
         text := "\x7d"
         ntype := "closing_brace"
         depth := depth } []]

/-- The nodes an unchanged key contributes (`plan.go:2075`): an
unchanged nested map gets the collapsed hidden-block nodes, everything
else nothing. -/
def unchangedChunkNodes (key : String) (vb : JValue) (depth : Int) : List TreeNode :=
  match vb with
  | .obj _ => unchangedBlockNodes key depth
  | _ => []

/-- Ordering of per-key chunks by their key (`sort.Strings` on the key
union). -/
def chunkLe (a b : String × List TreeNode) : Prop := strLe a.1 b.1

instance : DecidableRel chunkLe := fun a b => (inferInstance : Decidable (strLe a.1 b.1))

instance : IsTotal (String × List TreeNode) chunkLe :=
  ⟨fun a b => lexLe_total a.1.toList b.1.toList⟩

instance : IsTrans (String × List TreeNode) chunkLe :=
  ⟨fun _ _ _ => lexLe_trans⟩

/-- Assemble the both-maps branch of `processAttributeDiffs` from the
per-key chunks and the unchanged tally (`plan.go:1894` and
`plan.go:2117`): sorted per-key nodes, then the
`# (<n> unchanged attributes hidden)` comment only when the tally
exceeds 3. -/
def diffObjsAssemble (chunks : List (String × List TreeNode)) (unusedCount : Nat)
    (depth : Int) : List TreeNode :=
  (List.insertionSort chunkLe chunks).flatMap Prod.snd ++
    (if 3 < unusedCount then
      [.mk { NodeData.dflt with
             text := "# (" ++ toString unusedCount ++
               " unchanged attributes hidden)"
             ntype := "comment"
             depth := depth } []]
    else [])

mutual
/-- `processAttributeDiffs` (`plan.go:1865`): nothing when both sides
are nil, a key-by-key diff when both sides are maps, and a single
update leaf (or nothing when `reflect.DeepEqual`) otherwise. -/
def processAttributeDiffs (before after : JValue) (depth : Int) : List TreeNode :=
  match before, after with
  | .null, .null => []
  | .obj bf, .obj af =>
    diffObjsAssemble (diffChunks bf af depth ++ addedChunks af bf depth)
      (unchangedKeyCount bf af) depth
  | b, a =>
    if b.jeq a then []
    else
      [.mk { NodeData.dflt with
             text := "~ value = " ++ formatAttributeValue b ++ " -> " ++
               formatAttributeValue a
             ntype := "attribute"
             depth := depth
             changeType := "update" } []]

/-- Per-key node chunks for the before-map's keys: removed keys
(`plan.go:1922`), changed keys (`plan.go:1928`, via `diffValue`) and
unchanged keys (`plan.go:2075`). -/
def diffChunks (bf af : List (String × JValue)) (depth : Int) :
    List (String × List TreeNode) :=
  match bf with
  | [] => []
  | (key, vb) :: rest =>
    (match lookupField af key with
     | none => [(key, addResourceAttributes (.obj [(key, vb)]) "-" depth)]
     | some av =>
       if vb.jeq av then [(key, unchangedChunkNodes key vb depth)]
       else [(key, diffValue key vb av depth)]) ++
    diffChunks rest af depth
  termination_by structural bf

/-- The changed-key body of `processAttributeDiffs` (`plan.go:1928`):
nested maps recurse (the source calls `processAttributeDiffs` on the
two maps, i.e. the both-maps branch), aligned arrays recurse item-wise,
an array changing into a non-array emits nothing, and anything else is
a simple update leaf. -/
def diffValue (key : String) (vb av : JValue) (depth : Int) : List TreeNode :=
  match vb, av with
  | .obj bm, .obj am =>
    [.mk { NodeData.dflt with
           text := "~ " ++ key ++ " \x7b"
           expanded := true
           ntype := "block"
           depth := depth
           toggleable := true
           changeType := "update" }
       (diffObjsAssemble (diffChunks bm am (depth + 1) ++ addedChunks am bm (depth + 1))
         (unchangedKeyCount bm am) (depth + 1)),
     .mk { NodeData.dflt with
           text := "\x7d"
           ntype := "closing_brace"
           depth := depth } []]
  | .arr bs, .arr as2 =>
    [.mk { NodeData.dflt with
           text := "~ " ++ key ++ " \x7b"
           expanded := true
           ntype := "block"
           depth := depth
           toggleable := true
           changeType := "update" }
       (arrDiffItems bs as2 0 depth),
     .mk { NodeData.dflt with
           text := "\x7d"
           ntype := "closing_brace"
           depth := depth } []]
  | .arr _, _ => []
  | _, _ => [simpleChangedNode key vb av depth]

/-- The index-aligned array-diff loop of `processAttributeDiffs`
(`plan.go:1979`); a missing side is `nil`. -/
def arrDiffItems (bs as2 : List JValue) (i : Nat) (depth : Int) : List TreeNode :=
  match bs with
  | [] => arrTailItems as2 i depth
  | b :: brest =>
    arrItemNodes b ((as2.head?).getD .null) i depth ++
      arrDiffItems brest (as2.drop 1) (i + 1) depth

/-- One array item of the diff loop (`plan.go:1988`): equal items are
skipped; two map items become an indexed sub-block; a map item facing a
non-map emits nothing; anything else is an indexed update leaf. -/
def arrItemNodes (b a : JValue) (i : Nat) (depth : Int) : List TreeNode :=
  if b.jeq a then []
  else
    match b with
    | .obj bm =>
      (match a with
       | .obj am =>
         [.mk { NodeData.dflt with
                text := "~ [" ++ toString i ++ "] \x7b"
                expanded := true
                ntype := "block"
                depth := depth + 1
                toggleable := true
                changeType := "update" }
            (diffObjsAssemble
              (diffChunks bm am (depth + 2) ++ addedChunks am bm (depth + 2))
              (unchangedKeyCount bm am) (depth + 2)),
          .mk { NodeData.dflt with
                text := "\x7d"
                ntype := "closing_brace"
                depth := depth + 1 } []]
       | _ => [])
    | _ =>
      [.mk { NodeData.dflt with
             text := "~ [" ++ toString i ++ "] = " ++
               formatAttributeValue b ++ " -> " ++ formatAttributeValue a
             ntype := "attribute"
             depth := depth + 1
             changeType := "update" } []]
end

/-! ## Resource-level builder (`parseTerraformPlanJSON`, `plan.go:1404`) -/

/-- Generic association-list lookup (a Go map read). -/
def lookupA {α : Type} : List (String × α) → String → Option α
  | [], _ => none
  | (k, v) :: rest, key => if k = key then some v else lookupA rest key

/-- Go map assignment `m[k] = v` on the association-list
representation: overwrite the existing entry or append. -/
def insertOver {α : Type} : List (String × α) → String → α → List (String × α)
  | [], k, v => [(k, v)]
  | (k0, v0) :: rest, k, v =>
    if k0 = k then (k, v) :: rest else (k0, v0) :: insertOver rest k v

/-- One iteration of a map-building loop: run `f` on the item and, on
success, store the returned value under the returned key. -/
def insStep {α β : Type} (f : β → Option (String × α))
    (acc : List (String × α)) (it : β) : List (String × α) :=
  match f it with
  | some kv => insertOver acc kv.1 kv.2
  | none => acc

def JValue.isObjB : JValue → Bool
  | .obj _ => true
  | _ => false

/-- The string elements of a decoded `actions` array (`plan.go:1577`). -/
def actionStringsOf (actions : List JValue) : List String :=
  actions.filterMap fun a =>
    match a with
    | .str s => some s
    | _ => none

/-- `addResourceDiffNodes` (`plan.go:1758`): children appended to the
resource-body block node, given the optional explicit change type, the
block node's own change type, and the block node's depth. -/
def addResourceDiffNodes (change : List (String × JValue))
    (changeTypeArg : Option String) (parentChangeType : String)
    (parentDepth : Int) : List TreeNode :=
  let beforeLk := lookupField change "before"
  let afterLk := lookupField change "after"
  let hasBefore := beforeLk.isSome
  let hasAfter := afterLk.isSome
  let before := beforeLk.getD .null
  let after := afterLk.getD .null
  let effectiveChangeType :=
    match changeTypeArg with
    | some ct => ct
    | none =>
      if parentChangeType ≠ "" then parentChangeType
      else if hasBefore && hasAfter then "update"
      else if hasAfter then "create"
      else if hasBefore then "destroy"
      else ""
  if effectiveChangeType = "create" && hasAfter then
    addResourceAttributes after "+" (parentDepth + 1)
  else if effectiveChangeType = "destroy" && hasBefore then
    addResourceAttributes before "-" (parentDepth + 1)
  else if (effectiveChangeType = "update" || effectiveChangeType = "replace") &&
      hasBefore && hasAfter then
    processAttributeDiffs before after (parentDepth + 1)
  else []

/-- The per-resource result of the `resource_changes` loop
(`resourceInfo`, `plan.go:1541`; `path` coincides with `address`). -/
structure RCInfo where
  address : String
  node : TreeNode
  changeType : String
  wasMoved : Bool

/-- One iteration of the `resource_changes` loop (`plan.go:1552`):
`none` models `continue` (non-map entry, missing change object, empty
actions, or a pure no-op). -/
def resourceChangeEntry (change : JValue) : Option RCInfo :=
  match change with
  | .obj changeMap =>
    let address := getStr changeMap "address"
    let prevOk := getStrOk changeMap "previous_address"
    let previousAddress := prevOk.1
    let hasPrevious := prevOk.2
    let actionReason := getStr changeMap "action_reason"
    let typeStr := getStr changeMap "type"
    let mode := getStr changeMap "mode"
    match lookupField changeMap "change" with
    | some (.obj changeDetails) =>
      let actions :=
        match lookupField changeDetails "actions" with
        | some (.arr xs) => xs
        | _ => []
      if actions.length = 0 then none
      else
        let actionStrs := actionStringsOf actions
        if actionStrs = ["no-op"] then none
        else
          let changeType := mapActionsToChangeType actionStrs
          let wasMoved := hasPrevious && previousAddress ≠ address &&
            previousAddress ≠ ""
          let resourceText :=
            if wasMoved then
              "# " ++ address ++ " will be " ++ getGrammaticalAction changeType ++
                " (moved from " ++ previousAddress ++ ")"
            else if actionReason ≠ "" then
              "# " ++ address ++ " will be " ++ getGrammaticalAction changeType ++
                " (" ++ getActionReasonDisplay actionReason ++ ")"
            else
              "# " ++ address ++ " will be " ++ getGrammaticalAction changeType
          let resourceBlockPre :=
            if changeType = "create" then "+"
            else if changeType = "destroy" then "-"
            else if changeType = "update" then "~"
            else if changeType = "replace" then "-/+"
            else " "
          let resourceBlockDeclaration :=
            resourceBlockPre ++ " resource \"" ++ typeStr ++ "\" \"" ++
              getResourceNameFromAddress address mode typeStr ++ "\" \x7b"
          let blockNode := TreeNode.mk
            { NodeData.dflt with
              text := resourceBlockDeclaration
              ntype := "block"
              depth := 1
              toggleable := true
              changeType := changeType
              previousAddress := previousAddress
              actionReason := actionReason }
            (addResourceDiffNodes changeDetails (some changeType) changeType 1)
          let closingBraceNode := TreeNode.mk
            { NodeData.dflt with
              text := "\x7d"
              ntype := "closing_brace"
              depth := 1 } []
          let resourceNode := TreeNode.mk
            { NodeData.dflt with
              text := resourceText
              ntype := "resource"
              depth := 0
              toggleable := true
              changeType := changeType
              previousAddress := previousAddress
              actionReason := actionReason }
            [blockNode, closingBraceNode]
          some { address := address, node := resourceNode,
                 changeType := changeType, wasMoved := wasMoved }
    | _ => none
  | _ => none

/-- One iteration of the `resource_drift` loop (`plan.go:1438`): the
drifted resource's address and root node, or `none` for `continue`. -/
def driftEntry (item : JValue) : Option (String × TreeNode) :=
  match item with
  | .obj driftMap =>
    let address := getStr driftMap "address"
    let typeStr := getStr driftMap "type"
    match lookupField driftMap "change" with
    | some (.obj change) =>
      let actions :=
        match lookupField change "actions" with
        | some (.arr xs) => xs
        | _ => []
      let actionStrs := actionStringsOf actions
      let changeType := mapActionsToChangeType actionStrs
      let resourceBlockNode := TreeNode.mk
        { NodeData.dflt with
          text := formatResourceDeclaration address typeStr changeType
          ntype := "block"
          depth := 1
          toggleable := true
          changeType := changeType
          isDrifted := true }
        (addResourceDiffNodes change none changeType 1)
      let closingBraceNode := TreeNode.mk
        { NodeData.dflt with
          text := "\x7d"
          ntype := "closing_brace"
          depth := 1 } []
      let resourceNode := TreeNode.mk
        { NodeData.dflt with
          text := "# " ++ address ++ " has drifted (" ++ changeType ++ ")"
          ntype := "resource"
          depth := 0
          toggleable := true
          changeType := changeType
          isDrifted := true }
        [resourceBlockNode, closingBraceNode]
      some (address, resourceNode)
    | _ => none
  | _ => none

/-- The change-type counters accumulated by the `resource_changes` loop
(`plan.go:1620`): creates, updates, destroys — a `replace` counts as
both a create and a destroy (`plan.go:1633`). -/
def tallyCounts : List RCInfo → Nat × Nat × Nat
  | [] => (0, 0, 0)
  | i :: rest =>
    let t := tallyCounts rest
    if i.changeType = "create" then (t.1 + 1, t.2.1, t.2.2)
    else if i.changeType = "destroy" then (t.1, t.2.1, t.2.2 + 1)
    else if i.changeType = "update" then (t.1, t.2.1 + 1, t.2.2)
    else if i.changeType = "replace" then (t.1 + 1, t.2.1, t.2.2 + 1)
    else t

/-- The separator root emitted after drifted resources (`plan.go:1516`). -/
def separatorNode : TreeNode :=
  .mk { NodeData.dflt with
        text := ""
        expanded := true
        ntype := "separator"
        depth := 0 } []

/-- The drift section of the root list plus the `driftCount`
(`plan.go:1433`): sorted drifted-resource roots and a separator when
`resource_drift` is a non-empty list, nothing otherwise.  `driftCount`
counts every map-shaped drift item (`plan.go:1444` increments before
validating the item's `change`). -/
def driftSection (plan : List (String × JValue)) : List TreeNode × Nat :=
  match lookupField plan "resource_drift" with
  | some (.arr items) =>
    if items.isEmpty then ([], 0)
    else
      let driftedResources := items.foldl (insStep driftEntry) []
      let driftCount := items.countP JValue.isObjB
      (((sortStrings (driftedResources.map Prod.fst)).filterMap
          (fun path => lookupA driftedResources path)) ++ [separatorNode],
        driftCount)
  | _ => ([], 0)

/-- The summary line (`plan.go:1706`). -/
def summaryText (createCount updateCount destroyCount moveCount driftCount : Nat) :
    String :=
  "Plan: " ++ toString createCount ++ " to add, " ++ toString updateCount ++
    " to change, " ++ toString destroyCount ++ " to destroy" ++
    (if 0 < moveCount then " (" ++ toString moveCount ++ " moved)" else "") ++
    (if 0 < driftCount then " (" ++ toString driftCount ++ " drifted)" else "")

/-- The body of `parseTerraformPlanJSON` after a successful decode
(`plan.go:1421`): drift section, then the planned resources sorted by
address (non-moved before moved), then the summary root — or the
"No changes" info root when `resource_changes` is not a list. -/
def pickNonMoved (resources : List (String × RCInfo)) (path : String) :
    Option TreeNode :=
  match lookupA resources path with
  | some info => if info.wasMoved then none else some info.node
  | none => none

def pickMoved (resources : List (String × RCInfo)) (path : String) :
    Option TreeNode :=
  match lookupA resources path with
  | some info => if info.wasMoved then some info.node else none
  | none => none

def parseTerraformPlanJSONOk (plan : List (String × JValue)) : List TreeNode :=
  let drift := driftSection plan
  match lookupField plan "resource_changes" with
  | some (.arr resourceChanges) =>
    let infos := resourceChanges.filterMap resourceChangeEntry
    let counts := tallyCounts infos
    let moveCount := infos.countP (·.wasMoved)
    let resources := infos.foldl (insStep (fun i => some (i.address, i))) []
    let sortedPaths := sortStrings (resources.map Prod.fst)
    let nonMoved := sortedPaths.filterMap (pickNonMoved resources)
    let moved := sortedPaths.filterMap (pickMoved resources)
    drift.1 ++ nonMoved ++ moved ++
      [.mk { NodeData.dflt with
             text := summaryText counts.1 counts.2.1 counts.2.2 moveCount drift.2
             expanded := true
             ntype := "summary"
             depth := 0 } []]
  | _ =>
    drift.1 ++
      [.mk { NodeData.dflt with
             text := "No changes. Infrastructure is up-to-date."
             expanded := true
             ntype := "info"
             depth := 0 } []]

/-- `parseTerraformPlanJSON` (`plan.go:1404`).  The `json.Unmarshal`
call into `map[string]interface{}` is external library code, modelled
by the `Except` argument: `.error e` is a decode failure with message
`e`, `.ok plan` a successful decode of a top-level JSON object. -/
def parseTerraformPlanJSON (decoded : Except String (List (String × JValue))) :
    List TreeNode :=
  match decoded with
  | .error e =>
    [.mk { NodeData.dflt with
           text := "Error parsing plan JSON: " ++ e
           expanded := true
           ntype := "error"
           depth := 0 } []]
  | .ok plan => parseTerraformPlanJSONOk plan

/-! ## The plain-text plan parser (`parsePlan`, `plan.go:877`)

The source builds the tree by mutating nodes through pointers held on a
stack; the embedding keeps, for each open node, a frame holding its
scalar data and the children accumulated so far, and materialises the
node when the frame is popped.  Since every child is only ever appended
while its parent is the stack top, the resulting trees are identical. -/

/-- An open tree node under construction. -/
structure TFrame where
  data : NodeData
  acc : List TreeNode

/-- Finalise one frame into its parent frame. -/
def closeFrame (top parent : TFrame) : TFrame :=
  ⟨parent.data, parent.acc ++ [.mk top.data top.acc]⟩

/-- The pop loop `for len(stack) > 1 && depth <= stack[len(stack)-1].Depth`
(`plan.go:984`). -/
def popWhile (depth : Int) : TFrame → List TFrame → TFrame × List TFrame
  | top, [] => (top, [])
  | top, b :: bs =>
    if depth ≤ top.data.depth then popWhile depth (closeFrame top b) bs
    else (top, b :: bs)

/-- Collapse the whole stack into its bottom frame. -/
def popAll : TFrame → List TFrame → TFrame
  | top, [] => top
  | top, b :: bs => popAll (closeFrame top b) bs

/-- The root sentinel node of the text parser (`plan.go:887`); only its
children are returned. -/
def textRootData : NodeData :=
  { NodeData.dflt with
    text := "Terraform Plan"
    expanded := true
    isRoot := true
    toggleable := true }

/-- The line loop of the text parser (`plan.go:902`), carrying the
frame stack (top, rest), whether a resource header has been seen
(`currentResourceNode != nil`), the (otherwise unused) `blockLevel`
counter and the (otherwise unused) `inResourceBlock` flag. -/
def parseTextLines : List String → TFrame → List TFrame → Bool → Int → Bool →
    List TreeNode
  | [], top, below, _, _, _ => (popAll top below).acc
  | line :: rest, top, below, hasResource, blockLevel, inResourceBlock =>
    if goTrimSpace line = "" then
      parseTextLines rest top below hasResource blockLevel inResourceBlock
    else
      let indent : Nat := (line.toList.takeWhile (· = ' ')).length
      let trimmedLine := goTrimSpace line
      if containsSub line "#" &&
          (containsSub line "will be" || containsSub line "must be") then
        let rootFrame := popAll top below
        match rest with
        | next :: rest2 =>
          if containsSub line " will be destroyed" && goTrimSpace next ≠ "" &&
              containsSub next "# (because" then
            parseTextLines rest2
              ⟨{ NodeData.dflt with
                 text := trimmedLine ++ "\n" ++ goTrimSpace next
                 ntype := "resource"
                 depth := (indent / 2 : Nat)
                 toggleable := true }, []⟩
              [rootFrame] true 0 false
          else
            parseTextLines (next :: rest2)
              ⟨{ NodeData.dflt with
                 text := trimmedLine
                 ntype := "resource"
                 depth := (indent / 2 : Nat)
                 toggleable := true }, []⟩
              [rootFrame] true 0 false
        | [] =>
          parseTextLines []
            ⟨{ NodeData.dflt with
               text := trimmedLine
               ntype := "resource"
               depth := (indent / 2 : Nat)
               toggleable := true }, []⟩
            [rootFrame] true 0 false
      else
        let inRB :=
          if hasResource && !inResourceBlock &&
              (hasPreStr trimmedLine "- resource " ||
               hasPreStr trimmedLine "+ resource " ||
               hasPreStr trimmedLine "~ resource ") &&
              containsSub trimmedLine "\x7b" then true
          else inResourceBlock
        if !hasResource then
          parseTextLines rest top below hasResource blockLevel inRB
        else
          let blockLevel2 := blockLevel +
            (if containsSub line "\x7b" then 1 else 0) -
            (if containsSub line "\x7d" then 1 else 0)
          let depth : Int := (indent / 2 : Nat)
          let nodeType := if containsSub line "\x7b" then "block" else "attribute"
          let nd : NodeData :=
            { NodeData.dflt with
              text := trimmedLine
              ntype := nodeType
              depth := depth
              toggleable := true }
          let popped := popWhile depth top below
          if nodeType = "block" then
            parseTextLines rest ⟨nd, []⟩ (popped.1 :: popped.2) hasResource
              blockLevel2 inRB
          else
            parseTextLines rest ⟨popped.1.data, popped.1.acc ++ [.mk nd []]⟩
              popped.2 hasResource blockLevel2 inRB

/-- The text branch of `parsePlan` (`plan.go:884`). -/
def parseTextPlan (planOutput : String) : List TreeNode :=
  let lines := (splitOnChar '\n' planOutput.toList).map List.asString
  parseTextLines lines ⟨textRootData, []⟩ [] false 0 false

/-- `parsePlan` (`plan.go:877`).  `strings.TrimSpace(planOutput)[0]`
panics with an index-out-of-range when the trimmed input is empty;
the panic is modelled as `none`.  The `decoded` argument is the
`json.Unmarshal` oracle for the JSON branch (see
`parseTerraformPlanJSON`). -/
def parsePlan (planOutput : String)
    (decoded : Except String (List (String × JValue))) :
    Option (List TreeNode) :=
  match (goTrimSpace planOutput).toList with
  | [] => none
  | c :: _ =>
    if c = '{' then some (parseTerraformPlanJSON decoded)
    else some (parseTextPlan planOutput)

/-! ## The navigator (`Model`, `plan.go:35` and `Model.Update`, `plan.go:100`) -/

mutual
/-- The contribution of one node to `getVisibleNodes` (`plan.go:1003`):
itself, then its children's flattening when expanded. -/
def visNode : TreeNode → List TreeNode
  | .mk d cs => .mk d cs :: (if d.expanded then getVisibleNodes cs else [])

/-- `getVisibleNodes` (`plan.go:1003`): the visible flattening of a
forest. -/
def getVisibleNodes : List TreeNode → List TreeNode
  | [] => []
  | t :: ts => visNode t ++ getVisibleNodes ts
end

/-- `flattenNodes` (`plan.go:1240`) is character-for-character the same
traversal as `getVisibleNodes`. -/
def flattenNodes (nodes : List TreeNode) : List TreeNode := getVisibleNodes nodes

mutual
/-- `expandAllNodes` (`plan.go:1081`): expand a node (when it has
children) and recursively all of its descendants. -/
def expandAllNodes : TreeNode → TreeNode
  | .mk d cs =>
    if cs.isEmpty then .mk d cs
    else .mk { d with expanded := true } (expandAllList cs)

def expandAllList : List TreeNode → List TreeNode
  | [] => []
  | t :: ts => expandAllNodes t :: expandAllList ts
end

mutual
/-- `collapseAllNodes` (`plan.go:1090`): despite its comment ("we don't
collapse the node itself"), the source sets `node.Expanded = false` on
the node itself and on every descendant. -/
def collapseAllNodes : TreeNode → TreeNode
  | .mk d cs => .mk { d with expanded := false } (collapseAllList cs)

def collapseAllList : List TreeNode → List TreeNode
  | [] => []
  | t :: ts => collapseAllNodes t :: collapseAllList ts
end

mutual
/-- The number of visible lines a node contributes. -/
def visSize : TreeNode → Nat
  | .mk d cs => 1 + (if d.expanded then visSizeList cs else 0)

def visSizeList : List TreeNode → Nat
  | [] => 0
  | t :: ts => visSize t + visSizeList ts
end

mutual
/-- Apply `f` to the node at position `k` of the forest's visible
flattening: the pure counterpart of the source's mutation of
`visibleNodes[m.cursor]` through its pointer. -/
def updateAtVis : List TreeNode → Nat → (TreeNode → TreeNode) → List TreeNode
  | [], _, _ => []
  | t :: ts, k, f =>
    if k = 0 then f t :: ts
    else if k < visSize t then updInside t (k - 1) f :: ts
    else t :: updateAtVis ts (k - visSize t) f

def updInside : TreeNode → Nat → (TreeNode → TreeNode) → TreeNode
  | .mk d cs, k, f => if d.expanded then .mk d (updateAtVis cs k f) else .mk d cs
end

/-- Increment the leading (sibling) index of a path. -/
def bumpPath : List Nat → List Nat
  | [] => []
  | j :: r => (j + 1) :: r

mutual
/-- Visible nodes of one node, paired with their index paths (the pure
stand-in for Go's pointer identity; a node's `Parent` pointer is the
node at the path with the last component dropped). -/
def visWPNode : TreeNode → List (List Nat × TreeNode)
  | .mk d cs =>
    ([0], TreeNode.mk d cs) ::
      (if d.expanded then (visWP cs).map (fun p => (0 :: p.1, p.2)) else [])

/-- The visible flattening of a forest with index paths. -/
def visWP : List TreeNode → List (List Nat × TreeNode)
  | [] => []
  | t :: ts => visWPNode t ++ (visWP ts).map (fun p => (bumpPath p.1, p.2))
end

/-- The navigator state (`Model`, `plan.go:35`). -/
structure Model where
  nodes : List TreeNode
  allNodes : List TreeNode
  cursor : Int
  windowTop : Int
  windowHeight : Int
  horizontalOffset : Int
  width : Int
  quitting : Bool
  ready : Bool
  showHelp : Bool
  inputSearchModel : Bool
  searchMode : Bool
  searchString : String
  searchResults : List Int
  searchIndex : Int

/-- The cursor clamps of `ensureCursorVisible` (`plan.go:1021` and
`plan.go:1026`). -/
def ecvClampCursor (cursor total : Int) : Int :=
  let c1 := if cursor ≥ total then total - 1 else cursor
  if c1 < 0 then 0 else c1

/-- `effectiveWindowHeight` (`plan.go:1031`). -/
def ecvEffH (windowHeight : Int) : Int :=
  if windowHeight - 1 < 1 then 1 else windowHeight - 1

/-- The below/above window adjustments, the context buffer and the
negative clamp of `ensureCursorVisible` (`plan.go:1036`-`plan.go:1063`). -/
def ecvAdjust (cursor top effH : Int) : Int :=
  let cursorBelowWindow := cursor ≥ top + effH
  let cursorAboveWindow := cursor < top
  let t1 := if cursorBelowWindow then cursor - effH + 1 else top
  let t2 := if cursorAboveWindow then cursor else t1
  let t3 := if cursor > 2 ∧ t2 = cursor then cursor - 2 else t2
  if t3 < 0 then 0 else t3

/-- The final safety check of `ensureCursorVisible`
(`plan.go:1066`-`plan.go:1077`). -/
def ecvFinal (cursor top effH : Int) : Int :=
  if cursor < top ∨ cursor ≥ top + effH then
    if cursor < effH then 0
    else
      let centered := cursor - effH / 2
      if centered < 0 then 0 else centered
  else top

/-- `ensureCursorVisible` (`plan.go:1016`), step for step. -/
def ensureCursorVisible (m : Model) : Model :=
  let total : Int := (getVisibleNodes m.nodes).length
  let cursor2 := ecvClampCursor m.cursor total
  let effH := ecvEffH m.windowHeight
  { m with
    cursor := cursor2
    windowTop := ecvFinal cursor2 (ecvAdjust cursor2 m.windowTop effH) effH }

/-- The Normal-mode keys modelled from `Model.Update` (`plan.go:136`);
`right`/`keyL` and `left`/`keyH` are the two-string cases
`"right", "l"` and `"left", "h"`. -/
inductive Key where
  | up
  | down
  | right
  | keyL
  | left
  | keyH
  | space
  | enter
  | backspace

/-- The in-place toggle `currentNode.Expanded = !currentNode.Expanded`
of the space key (`plan.go:184`). -/
def toggleExpanded (t : TreeNode) : TreeNode :=
  .mk { t.data with
        expanded := !t.data.expanded } t.children

/-- The in-place collapse `currentNode.Expanded = false` of the
backspace key (`plan.go:213`). -/
def setCollapsed (t : TreeNode) : TreeNode :=
  .mk { t.data with
        expanded := false } t.children

/-- The Normal-mode branch of `Model.Update` (`plan.go:137`:
`!m.searchMode && !m.inputSearchModel`) for the modelled keys. -/
def updateNormal (key : Key) (m : Model) : Model :=
  match key with
  | .up =>
    if m.cursor > 0 then ensureCursorVisible { m with cursor := m.cursor - 1 }
    else m
  | .down =>
    let visibleNodes := getVisibleNodes m.nodes
    if m.cursor < (visibleNodes.length : Int) - 1 then
      ensureCursorVisible { m with cursor := m.cursor + 1 }
    else m
  | .right | .keyL =>
    let h := m.horizontalOffset + 10
    { m with horizontalOffset := if h > 500 then 500 else h }
  | .left | .keyH =>
    let h := m.horizontalOffset - 10
    { m with horizontalOffset := if h < 0 then 0 else h }
  | .space =>
    let visibleNodes := getVisibleNodes m.nodes
    if 0 ≤ m.cursor ∧ m.cursor < (visibleNodes.length : Int) then
      match visibleNodes[m.cursor.toNat]? with
      | some currentNode =>
        if 0 < currentNode.children.length ∧ currentNode.data.toggleable then
          let nodes2 := updateAtVis m.nodes m.cursor.toNat toggleExpanded
          let newVisibleNodes := getVisibleNodes nodes2
          let c1 :=
            if m.cursor ≥ (newVisibleNodes.length : Int) then
              (newVisibleNodes.length : Int) - 1
            else m.cursor
          let c2 := if c1 < 0 then 0 else c1
          ensureCursorVisible
            { m with nodes := nodes2, allNodes := flattenNodes nodes2, cursor := c2 }
        else m
      | none => m
    else m
  | .enter =>
    let visibleNodes := getVisibleNodes m.nodes
    if 0 ≤ m.cursor ∧ m.cursor < (visibleNodes.length : Int) then
      match visibleNodes[m.cursor.toNat]? with
      | some currentNode =>
        let nodes2 :=
          if 0 < currentNode.children.length ∧ currentNode.data.toggleable then
            updateAtVis m.nodes m.cursor.toNat
              (fun t => if t.data.expanded then collapseAllNodes t else expandAllNodes t)
          else m.nodes
        ensureCursorVisible { m with nodes := nodes2, allNodes := flattenNodes nodes2 }
      | none => m
    else m
  | .backspace =>
    let m1 := { m with horizontalOffset := 0 }
    let vps := visWP m.nodes
    if 0 ≤ m.cursor ∧ m.cursor < (vps.length : Int) then
      match vps[m.cursor.toNat]? with
      | some pn =>
        if pn.2.data.expanded ∧ 0 < pn.2.children.length then
          let nodes2 := updateAtVis m.nodes m.cursor.toNat setCollapsed
          { m1 with nodes := nodes2, allNodes := flattenNodes nodes2 }
        else if 2 ≤ pn.1.length then
          match (visWP m.nodes).findIdx? (fun q => q.1 = pn.1.dropLast) with
          | some j => { m1 with cursor := (j : Int) }
          | none => m1
        else m1
      | none => m1
    else m1

/-- The match-collection loop of `getSearchResults` (`plan.go:1212`). -/
def matchIdxAux (q : String) : List TreeNode → Int → List Int
  | [], _ => []
  | t :: ts, i =>
    (if containsSub t.data.text q then [i] else []) ++ matchIdxAux q ts (i + 1)

/-- `Model.getSearchResults` (`plan.go:1203`): expand the entire forest,
re-flatten, and collect the indices of nodes whose text contains the
query; returns the mutated model and the result list. -/
def getSearchResultsF (m : Model) : Model × List Int :=
  let nodes2 := expandAllList m.nodes
  let all2 := flattenNodes nodes2
  ({ m with nodes := nodes2, allNodes := all2 }, matchIdxAux m.searchString all2 0)

/-- The `"enter"` case of the `inputSearchModel` branch of
`Model.Update` (`plan.go:371`). -/
def searchConfirm (m : Model) : Model :=
  if 0 < m.searchString.length then
    let gsr := getSearchResultsF m
    let m2 : Model := { gsr.1 with
                        searchMode := true
                        inputSearchModel := false
                        searchResults := gsr.2 }
    if 0 < m2.searchResults.length then
      match m2.searchResults with
      | c :: _ => ensureCursorVisible { m2 with searchIndex := 0, cursor := c }
      | [] => m2
    else m2
  else { m with searchString := "", inputSearchModel := false }

/-! ## General lemmas about the embedding -/

theorem hasPre_append (l r : List Char) : hasPre l (l ++ r) = true := by
  induction l with
  | nil => rfl
  | cons c cs ih => simp [hasPre, ih]

theorem toList_append (p q : String) : (p ++ q).toList = p.toList ++ q.toList := by
  cases p; cases q; rfl

theorem hasPreStr_append (p q : String) : hasPreStr (p ++ q) p = true := by
  unfold hasPreStr
  rw [toList_append]
  exact hasPre_append _ _

theorem goTrimSpace_eq_empty_iff_toList (s : String) :
    goTrimSpace s = "" ↔ (goTrimSpace s).toList = [] := by
  constructor
  · intro h; rw [h]; rfl
  · intro h
    have : (goTrimSpace s).data = ("" : String).data := h
    exact String.ext this

theorem lookupA_mem {α : Type} : ∀ {m : List (String × α)} {k : String} {v : α},
    lookupA m k = some v → (k, v) ∈ m := by
  intro m
  induction m with
  | nil => intro k v h; simp [lookupA] at h
  | cons q rest ih =>
    intro k v h
    obtain ⟨k0, v0⟩ := q
    simp only [lookupA] at h
    split at h
    · rename_i hc
      obtain rfl : v0 = v := Option.some.inj h
      subst hc
      exact List.mem_cons_self _ _
    · exact List.mem_cons_of_mem _ (ih h)

theorem insertOver_forall {α : Type} {P : String × α → Prop} :
    ∀ {m : List (String × α)} {k : String} {v : α},
      (∀ p ∈ m, P p) → P (k, v) → ∀ p ∈ insertOver m k v, P p := by
  intro m
  induction m with
  | nil =>
    intro k v _ hv p hp
    simp only [insertOver, List.mem_singleton] at hp
    exact hp ▸ hv
  | cons q rest ih =>
    intro k v hm hv p hp
    obtain ⟨k0, v0⟩ := q
    simp only [insertOver] at hp
    split at hp
    · rcases List.mem_cons.mp hp with h | h
      · exact h ▸ hv
      · exact hm p (List.mem_cons_of_mem _ h)
    · rcases List.mem_cons.mp hp with h | h
      · exact hm p (h ▸ List.mem_cons_self _ _)
      · exact ih (fun r hr => hm r (List.mem_cons_of_mem _ hr)) hv p h

theorem foldl_insertOver_forall {α β : Type} {P : String × α → Prop}
    (f : β → Option (String × α)) (items : List β)
    (hf : ∀ b p, f b = some p → P p) :
    ∀ m, (∀ p ∈ m, P p) →
      ∀ p ∈ items.foldl (insStep f) m, P p := by
  induction items with
  | nil => intro m hm; simpa using hm
  | cons it rest ih =>
    intro m hm
    simp only [List.foldl_cons]
    cases hfi : f it with
    | none =>
      rw [show insStep f m it = m by rw [insStep, hfi]]
      exact ih m hm
    | some kv =>
      rw [show insStep f m it = insertOver m kv.1 kv.2 by rw [insStep, hfi]]
      exact ih _ (insertOver_forall hm (hf it kv hfi))

theorem filterMap_pair_map_snd {α : Type} (g : String → Option α) (l : List String) :
    (l.filterMap (fun p => (g p).map (fun n => (p, n)))).map Prod.snd =
      l.filterMap g := by
  induction l with
  | nil => rfl
  | cons p rest ih =>
    cases h : g p <;> simp [List.filterMap_cons, h, ih]

theorem filterMap_pair_map_fst_sublist {α : Type} (g : String → Option α)
    (l : List String) :
    List.Sublist ((l.filterMap (fun p => (g p).map (fun n => (p, n)))).map Prod.fst) l := by
  induction l with
  | nil => simp
  | cons p rest ih =>
    cases h : g p with
    | none =>
      simp only [List.filterMap_cons, h, Option.map_none']
      exact ih.cons _
    | some n =>
      simp only [List.filterMap_cons, h, Option.map_some', List.map_cons]
      exact ih.cons₂ _

/-! ## Claim C7 -/

/-- Claim C7 (confirmed): if the raw plan input cannot be decoded at
all, `parseTerraformPlanJSON` returns exactly one root node of type
`error` carrying the decode-failure description, and no other nodes
(`plan.go:1404`). -/
theorem c7_decode_error (e : String) :
    parseTerraformPlanJSON (.error e) =
      [TreeNode.mk { NodeData.dflt with
                     text := "Error parsing plan JSON: " ++ e
                     expanded := true
                     ntype := "error"
                     depth := 0 } []] := rfl

/-! ## Claim C10 -/

/-- Claim C10 (confirmed): `parsePlan` panics (indexes character 0 of
the trimmed input unguarded) exactly when the trimmed input is empty —
modelled as `none` — and returns a node list on every other input
(`plan.go:877`). -/
theorem c10_parse_totality (s : String)
    (d : Except String (List (String × JValue))) :
    (goTrimSpace s = "" → parsePlan s d = none) ∧
    (goTrimSpace s ≠ "" → (parsePlan s d).isSome = true) := by
  constructor
  · intro h
    simp [parsePlan, h]
  · intro h
    unfold parsePlan
    cases hc : (goTrimSpace s).toList with
    | nil => exact absurd ((goTrimSpace_eq_empty_iff_toList s).mpr hc) h
    | cons c cs =>
      split
      · rename_i heq; simp at heq
      · split <;> rfl

/-- Witness for C10 at concrete inputs. -/
theorem c10_parse_totality_witness :
    parsePlan " \n " (.error "e") = none ∧
    (parsePlan "hello" (.error "e")).isSome = true :=
  ⟨(c10_parse_totality " \n " (.error "e")).1 (by decide),
   (c10_parse_totality "hello" (.error "e")).2 (by decide)⟩

/-! ## Claim C1 -/

/-- The classification exactly as the claim words it (spec §4.1 step 1):
"both create+delete ⇒ replace; create only ⇒ create; delete only ⇒
destroy; update only ⇒ update; otherwise join the raw tags". -/
def specClassifyActions (actions : List String) : String :=
  if sliceContains actions "create" && sliceContains actions "delete" then "replace"
  else if actions = ["create"] then "create"
  else if actions = ["delete"] then "destroy"
  else if actions = ["update"] then "update"
  else joinWith "/" actions

/-- Claim C1 (corrected), counterexample: on the action list
`["create", "read"]` the source classifies by membership and returns
`"create"`, while the claim's "create only ⇒ create; otherwise join"
demands `"create/read"`. -/
theorem c1_classification_counterexample :
    mapActionsToChangeType ["create", "read"] = "create" ∧
    specClassifyActions ["create", "read"] = "create/read" ∧
    mapActionsToChangeType ["create", "read"] ≠
      specClassifyActions ["create", "read"] :=
  ⟨rfl, rfl, by decide⟩

/-- The action strings a `resource_changes` entry carries (the
extraction steps of `plan.go:1564`, `plan.go:1569` and `plan.go:1577`). -/
def entryActionStrings (e : JValue) : List String :=
  match e with
  | .obj changeMap =>
    match lookupField changeMap "change" with
    | some (.obj changeDetails) =>
      match lookupField changeDetails "actions" with
      | some (.arr xs) => actionStringsOf xs
      | _ => []
    | _ => []
  | _ => []

/-- Claim C1 (amended): the classification is by membership with
priority — create and delete ⇒ replace, else create ⇒ create, else
delete ⇒ destroy, else update ⇒ update, an empty list ⇒ no-op, and any
other non-empty list joins the raw tags with `/`; and an entry whose
only action tag is `no-op` is skipped by the `resource_changes` loop
(`plan.go:1793`, `plan.go:1584`). -/
theorem c1_classification_amended (actions : List String) :
    (sliceContains actions "create" = true → sliceContains actions "delete" = true →
      mapActionsToChangeType actions = "replace") ∧
    (sliceContains actions "create" = true → sliceContains actions "delete" = false →
      mapActionsToChangeType actions = "create") ∧
    (sliceContains actions "create" = false → sliceContains actions "delete" = true →
      mapActionsToChangeType actions = "destroy") ∧
    (sliceContains actions "create" = false → sliceContains actions "delete" = false →
      sliceContains actions "update" = true →
      mapActionsToChangeType actions = "update") ∧
    (actions = [] → mapActionsToChangeType actions = "no-op") ∧
    (sliceContains actions "create" = false → sliceContains actions "delete" = false →
      sliceContains actions "update" = false → actions ≠ [] →
      mapActionsToChangeType actions = joinWith "/" actions) ∧
    (∀ e : JValue, entryActionStrings e = ["no-op"] → resourceChangeEntry e = none) := by
  refine ⟨?_, ?_, ?_, ?_, ?_, ?_, ?_⟩
  · intro h1 h2; simp [mapActionsToChangeType, h1, h2]
  · intro h1 h2; simp [mapActionsToChangeType, h1, h2]
  · intro h1 h2; simp [mapActionsToChangeType, h1, h2]
  · intro h1 h2 h3; simp [mapActionsToChangeType, h1, h2, h3]
  · intro h; subst h; rfl
  · intro h1 h2 h3 h4
    simp [mapActionsToChangeType, h1, h2, h3, List.length_eq_zero, h4]
  · intro e h
    cases e with
    | obj changeMap =>
      simp only [entryActionStrings] at h
      simp only [resourceChangeEntry]
      cases hch : lookupField changeMap "change" with
      | none => simp only [hch] at h; simp at h
      | some cv =>
        simp only [hch] at h ⊢
        cases cv with
        | obj changeDetails =>
          simp only at h ⊢
          cases hac : lookupField changeDetails "actions" with
          | none => simp only [hac] at h; simp at h
          | some av =>
            simp only [hac] at h ⊢
            cases av with
            | arr xs =>
              simp only at h ⊢
              have hxs : ¬ xs.length = 0 := by
                intro hlen
                rw [List.length_eq_zero] at hlen
                subst hlen
                simp [actionStringsOf] at h
              simp [hxs, h]
            | null => simp at h
            | bool b => simp at h
            | num n => simp at h
            | str s2 => simp at h
            | obj o => simp at h
        | null => simp at h
        | bool b => simp at h
        | num n => simp at h
        | str s2 => simp at h
        | arr a2 => simp at h
    | null => simp [entryActionStrings] at h
    | bool b => simp [entryActionStrings] at h
    | num n => simp [entryActionStrings] at h
    | str s2 => simp [entryActionStrings] at h
    | arr a2 => simp [entryActionStrings] at h

/-- Witness for C1 at concrete inputs. -/
theorem c1_classification_amended_witness :
    mapActionsToChangeType ["delete", "create"] = "replace" ∧
    mapActionsToChangeType ["read"] = "read" :=
  ⟨(c1_classification_amended ["delete", "create"]).1 (by decide) (by decide),
   ((c1_classification_amended ["read"]).2.2.2.2.2.1 (by decide) (by decide)
     (by decide) (by decide)).trans rfl⟩

/-! ## Claim C5 -/

theorem ecvClampCursor_nonneg (c total : Int) : 0 ≤ ecvClampCursor c total := by
  unfold ecvClampCursor
  simp only []
  split_ifs <;> omega

theorem ecvClampCursor_eq_self (c total : Int) (h0 : 0 ≤ c) (hlt : c < total) :
    ecvClampCursor c total = c := by
  unfold ecvClampCursor
  simp only []
  split_ifs <;> omega

theorem ecvAdjust_nonneg (c t e : Int) : 0 ≤ ecvAdjust c t e := by
  unfold ecvAdjust
  simp only []
  split_ifs <;> omega

theorem ecvEffH_eq_max (wh : Int) : ecvEffH wh = max 1 (wh - 1) := by
  unfold ecvEffH
  split_ifs <;> omega

theorem ecvFinal_invariant (c t e : Int) (hc : 0 ≤ c) (ht : 0 ≤ t) (he : 1 ≤ e) :
    0 ≤ ecvFinal c t e ∧ ecvFinal c t e ≤ c ∧ c < ecvFinal c t e + e := by
  unfold ecvFinal
  simp only []
  split_ifs <;> omega

theorem ensureCursorVisible_nodes (m : Model) :
    (ensureCursorVisible m).nodes = m.nodes := rfl

theorem ensureCursorVisible_cursor (m : Model) :
    (ensureCursorVisible m).cursor =
      ecvClampCursor m.cursor ((getVisibleNodes m.nodes).length : Int) := rfl

theorem ensureCursorVisible_cursor_eq (m : Model) (h0 : 0 ≤ m.cursor)
    (hlt : m.cursor < ((getVisibleNodes m.nodes).length : Int)) :
    (ensureCursorVisible m).cursor = m.cursor := by
  rw [ensureCursorVisible_cursor]
  exact ecvClampCursor_eq_self _ _ h0 hlt

/-- The 100-leaf model that refutes the claimed `window_top` range:
100 visible rows, window height 25, cursor on row 98 with the window
top at 75. -/
def c5Model : Model :=
  { nodes := List.replicate 100 (TreeNode.mk NodeData.dflt [])
    allNodes := List.replicate 100 (TreeNode.mk NodeData.dflt [])
    cursor := 98
    windowTop := 75
    windowHeight := 25
    horizontalOffset := 0
    width := 80
    quitting := false
    ready := true
    showHelp := false
    inputSearchModel := false
    searchMode := false
    searchString := ""
    searchResults := []
    searchIndex := 0 }

/-- Claim C5 (corrected), counterexample: after the `down` key the
handler runs `ensureCursorVisible`, which sets `window_top = 76`,
exceeding `max 0 (total_visible - window_height) = 75` — the claimed
clamp does not exist in the code (`plan.go:1041`-`plan.go:1043` uses
`windowHeight - 1` and never clamps to the total). -/
theorem c5_viewport_counterexample :
    (getVisibleNodes c5Model.nodes).length = 100 ∧
    c5Model.windowHeight = 25 ∧
    (updateNormal .down c5Model).cursor = 99 ∧
    (updateNormal .down c5Model).windowTop = 76 ∧
    ¬((updateNormal .down c5Model).windowTop ≤
        max 0 (((getVisibleNodes (updateNormal .down c5Model).nodes).length : Int) -
          (updateNormal .down c5Model).windowHeight)) := by
  refine ⟨by decide, rfl, by decide, by decide, ?_⟩
  intro h
  rw [show (updateNormal .down c5Model).windowTop = 76 by decide] at h
  rw [show ((getVisibleNodes (updateNormal .down c5Model).nodes).length : Int) = 100 by decide] at h
  rw [show (updateNormal .down c5Model).windowHeight = 25 by decide] at h
  omega

/-- Claim C5 (amended): after every call of the visibility adjustment
(all Normal-mode cursor moves and expansion toggles invoke it; the
collapse-or-parent key does not), the viewport satisfies
`0 ≤ window_top ≤ cursor < window_top + max 1 (window_height - 1)`; in
particular `cursor < window_top + window_height` whenever
`window_height ≥ 2`.  The upper clamp
`window_top ≤ max 0 (total_visible - window_height)` claimed by the
spec is not maintained. -/
theorem c5_viewport_amended (m : Model) :
    0 ≤ (ensureCursorVisible m).windowTop ∧
    (ensureCursorVisible m).windowTop ≤ (ensureCursorVisible m).cursor ∧
    (ensureCursorVisible m).cursor <
      (ensureCursorVisible m).windowTop + max 1 (m.windowHeight - 1) ∧
    (2 ≤ m.windowHeight →
      (ensureCursorVisible m).cursor <
        (ensureCursorVisible m).windowTop + m.windowHeight) := by
  have hc := ecvClampCursor_nonneg m.cursor ((getVisibleNodes m.nodes).length : Int)
  have ht := ecvAdjust_nonneg (ecvClampCursor m.cursor ((getVisibleNodes m.nodes).length : Int))
    m.windowTop (ecvEffH m.windowHeight)
  have he : 1 ≤ ecvEffH m.windowHeight := by rw [ecvEffH_eq_max]; omega
  have hfin := ecvFinal_invariant _ _ _ hc ht he
  have hmax := ecvEffH_eq_max m.windowHeight
  unfold ensureCursorVisible
  simp only []
  omega

/-- Witness for C5 (amended) at a concrete model. -/
theorem c5_viewport_amended_witness :
    0 ≤ (ensureCursorVisible c5Model).windowTop ∧
    (ensureCursorVisible c5Model).windowTop ≤ (ensureCursorVisible c5Model).cursor ∧
    (ensureCursorVisible c5Model).cursor <
      (ensureCursorVisible c5Model).windowTop + max 1 (c5Model.windowHeight - 1) ∧
    (2 ≤ c5Model.windowHeight →
      (ensureCursorVisible c5Model).cursor <
        (ensureCursorVisible c5Model).windowTop + c5Model.windowHeight) :=
  c5_viewport_amended c5Model

/-! ## Claim C4 -/

/-- A root with one child, both expanded — the state on which the
"keep the node expanded" comment is contradicted. -/
def c4Root : TreeNode :=
  TreeNode.mk { NodeData.dflt with text := "root", expanded := true, toggleable := true }
    [TreeNode.mk { NodeData.dflt with text := "child", expanded := true } []]

def c4Model : Model :=
  { nodes := [c4Root]
    allNodes := getVisibleNodes [c4Root]
    cursor := 0
    windowTop := 0
    windowHeight := 25
    horizontalOffset := 0
    width := 80
    quitting := false
    ready := true
    showHelp := false
    inputSearchModel := false
    searchMode := false
    searchString := ""
    searchResults := []
    searchIndex := 0 }

/-- Claim C4 (code bug): pressing enter on an expanded toggleable node
with children runs `collapseAllNodes` on it, which — contrary to the
claim and to the code's own comments at `plan.go:235`-`plan.go:237`
("collapse all children while keeping the current node expanded") and
`plan.go:1092` ("we don't collapse the node itself") — sets the node's
own `Expanded` to `false`: after the key, the node itself is collapsed,
not just its descendants.  (The second half of the claim holds: enter
on a collapsed node expands it and all descendants.) -/
theorem c4_enter_collapse_bug :
    (collapseAllNodes c4Root).data.expanded = false ∧
    ((updateNormal .enter c4Model).nodes.head?.map fun t => t.data.expanded) =
      some false ∧
    ((updateNormal .enter
        { c4Model with nodes := [collapseAllNodes c4Root] }).nodes.head?.map
      fun t => t.data.expanded) = some true :=
  ⟨rfl, rfl, rfl⟩

/-! ## Claim C3 -/

/-- `isEffectivelyEqual` (`plan.go:1268`): the effective-equality
helper the spec's law describes.  `processAttributeDiffs` never calls
it — it is dead code in `plan.go`. -/
def isEffectivelyEqual (a b : JValue) : Bool :=
  if (match a, b with | .null, .null => true | _, _ => false) then true
  else if a.jeq b then true
  else if (match a, b with | .str s, .null => s == "" | _, _ => false) then true
  else if (match a, b with | .null, .str s => s == "" | _, _ => false) then true
  else if (match a, b with
           | .str s1, .str s2 => s1 == "" && s2 == ""
           | _, _ => false) then true
  else if (match a, b with
           | .obj m1, .obj m2 => m1.isEmpty && m2.isEmpty
           | _, _ => false) then true
  else if (match a, b with | .obj m1, .null => m1.isEmpty | _, _ => false) then true
  else if (match a, b with | .null, .obj m2 => m2.isEmpty | _, _ => false) then true
  else if (match a, b with
           | .arr l1, .arr l2 => l1.isEmpty && l2.isEmpty
           | _, _ => false) then true
  else if (match a, b with | .arr l1, .null => l1.isEmpty | _, _ => false) then true
  else if (match a, b with | .null, .arr l2 => l2.isEmpty | _, _ => false) then true
  else false

/-- The keys the `unusedCount` loop counts (see `unchangedKeyCount`). -/
def unchangedKeys (bf af : List (String × JValue)) : List String :=
  match bf with
  | [] => []
  | (k, vb) :: rest =>
    (match lookupField af k with
     | some va => if vb.jeq va then [k] else []
     | none => []) ++ unchangedKeys rest af

theorem unchangedKeyCount_eq_length (bf af : List (String × JValue)) :
    unchangedKeyCount bf af = (unchangedKeys bf af).length := by
  induction bf with
  | nil => rfl
  | cons p rest ih =>
    obtain ⟨k, vb⟩ := p
    simp only [unchangedKeyCount, unchangedKeys, List.length_append, ih]
    cases hl : lookupField af k with
    | none => simp
    | some va =>
      simp only []
      cases hj : vb.jeq va <;> simp [hj]

theorem unchangedKeys_subset (bf af : List (String × JValue)) :
    ∀ x ∈ unchangedKeys bf af, x ∈ bf.map Prod.fst := by
  induction bf with
  | nil => simp [unchangedKeys]
  | cons p rest ih =>
    obtain ⟨k, vb⟩ := p
    intro x hx
    simp only [unchangedKeys] at hx
    rcases List.mem_append.mp hx with h | h
    · cases hl : lookupField af k with
      | none => simp [hl] at h
      | some va =>
        simp only [hl] at h
        cases hj : vb.jeq va
        · simp [hj] at h
        · rw [hj] at h
          simp only [if_true, List.mem_singleton] at h
          simp [h]
    · simp [ih x h]

theorem not_mem_unchangedKeys {bf af : List (String × JValue)} {k : String}
    {vb va : JValue} (hnd : (bf.map Prod.fst).Nodup)
    (hb : lookupField bf k = some vb) (ha : lookupField af k = some va)
    (hne : vb.jeq va = false) : k ∉ unchangedKeys bf af := by
  induction bf with
  | nil => simp [unchangedKeys]
  | cons p rest ih =>
    obtain ⟨k0, v0⟩ := p
    simp only [List.map_cons, List.nodup_cons] at hnd
    simp only [lookupField] at hb
    intro hmem
    simp only [unchangedKeys] at hmem
    rcases List.mem_append.mp hmem with h | h
    · by_cases hk : k0 = k
      · subst hk
        rw [if_pos rfl] at hb
        obtain rfl : v0 = vb := Option.some.inj hb
        simp only [ha] at h
        simp [hne] at h
      · cases hl : lookupField af k0 with
        | none => simp [hl] at h
        | some w =>
          simp only [hl] at h
          cases hj : v0.jeq w
          · simp [hj] at h
          · rw [hj] at h
            simp only [if_true, List.mem_singleton] at h
            exact hk h.symm
    · by_cases hk : k0 = k
      · subst hk
        exact hnd.1 (unchangedKeys_subset rest af _ h)
      · rw [if_neg hk] at hb
        exact ih hnd.2 hb h

theorem diffChunks_mem_changed {bf af : List (String × JValue)} {k : String}
    {vb va : JValue} (hb : lookupField bf k = some vb)
    (ha : lookupField af k = some va) (hne : vb.jeq va = false) (depth : Int) :
    (k, diffValue k vb va depth) ∈ diffChunks bf af depth := by
  induction bf with
  | nil => simp [lookupField] at hb
  | cons p rest ih =>
    obtain ⟨k0, v0⟩ := p
    simp only [lookupField] at hb
    rw [diffChunks]
    by_cases hk : k0 = k
    · subst hk
      rw [if_pos rfl] at hb
      obtain rfl : v0 = vb := Option.some.inj hb
      apply List.mem_append_left
      simp only [ha]
      rw [hne]
      simp
    · rw [if_neg hk] at hb
      exact List.mem_append_right _ (ih hb)

theorem mem_diffObjsAssemble_of_chunk {chunks : List (String × List TreeNode)}
    {c : String × List TreeNode} {n : TreeNode} (hc : c ∈ chunks) (hn : n ∈ c.2)
    (cnt : Nat) (depth : Int) : n ∈ diffObjsAssemble chunks cnt depth := by
  unfold diffObjsAssemble
  apply List.mem_append_left
  rw [List.mem_flatMap]
  exact ⟨c, ((List.perm_insertionSort chunkLe chunks).mem_iff).mpr hc, hn⟩

/-- Claim C3 (corrected), counterexample: a key whose before value is
`""` and whose after value is `null` IS rendered as a visible update
leaf `~ k = "" -> null` (the cited `processAttributeDiffs` compares
with `reflect.DeepEqual` only, `plan.go:1928`), and it is NOT counted
in the hidden-attribute tally (`plan.go:2123`) — even though
`isEffectivelyEqual` (which the spec's law describes, but which
`processAttributeDiffs` never calls) would treat the two as equal. -/
theorem c3_effective_equality_counterexample :
    processAttributeDiffs (.obj [("k", .str "")]) (.obj [("k", .null)]) 2 =
      [TreeNode.mk { NodeData.dflt with
                     text := "~ k = \"\" -> null"
                     ntype := "attribute"
                     depth := 2
                     changeType := "update" } []] ∧
    unchangedKeyCount [("k", .str "")] [("k", .null)] = 0 ∧
    isEffectivelyEqual (.str "") .null = true :=
  ⟨rfl, rfl, rfl⟩

/-- Claim C3 (amended): a key present in both maps with before `""` and
after `null` (or vice versa) is rendered as a visible update leaf
`~ <key> = "" -> null` (resp. `~ <key> = null -> ""`) of type
`attribute`, and is not counted in the hidden-attribute tally; the
effective-equality suppression the spec describes does not happen
because `processAttributeDiffs` uses exact deep equality. -/
theorem c3_effective_equality_amended (bf af : List (String × JValue)) (k : String)
    (depth : Int) (hnd : (bf.map Prod.fst).Nodup) :
    (lookupField bf k = some (.str "") → lookupField af k = some .null →
      simpleChangedNode k (.str "") .null depth ∈
        processAttributeDiffs (.obj bf) (.obj af) depth ∧
      (simpleChangedNode k (.str "") .null depth).data.text =
        "~ " ++ k ++ " = \"\" -> null" ∧
      (simpleChangedNode k (.str "") .null depth).data.ntype = "attribute" ∧
      k ∉ unchangedKeys bf af) ∧
    (lookupField bf k = some .null → lookupField af k = some (.str "") →
      simpleChangedNode k .null (.str "") depth ∈
        processAttributeDiffs (.obj bf) (.obj af) depth ∧
      (simpleChangedNode k .null (.str "") depth).data.text =
        "~ " ++ k ++ " = null -> \"\"" ∧
      (simpleChangedNode k .null (.str "") depth).data.ntype = "attribute" ∧
      k ∉ unchangedKeys bf af) := by
  constructor
  · intro hb ha
    have hne : JValue.jeq (.str "") .null = false := rfl
    refine ⟨?_, ?_, rfl, not_mem_unchangedKeys hnd hb ha hne⟩
    · have hchunk := diffChunks_mem_changed hb ha hne depth
      have hv : diffValue k (.str "") .null depth =
          [simpleChangedNode k (.str "") .null depth] := rfl
      simp only [processAttributeDiffs]
      exact mem_diffObjsAssemble_of_chunk (List.mem_append_left _ hchunk)
        (by rw [hv]; exact List.mem_singleton.mpr rfl) _ _
    · simp [simpleChangedNode, formatAttributeValue, String.append_assoc]
  · intro hb ha
    have hne : JValue.jeq .null (.str "") = false := rfl
    refine ⟨?_, ?_, rfl, not_mem_unchangedKeys hnd hb ha hne⟩
    · have hchunk := diffChunks_mem_changed hb ha hne depth
      have hv : diffValue k .null (.str "") depth =
          [simpleChangedNode k .null (.str "") depth] := rfl
      simp only [processAttributeDiffs]
      exact mem_diffObjsAssemble_of_chunk (List.mem_append_left _ hchunk)
        (by rw [hv]; exact List.mem_singleton.mpr rfl) _ _
    · simp [simpleChangedNode, formatAttributeValue, String.append_assoc]

/-- Witness for C3 (amended) at a concrete input. -/
theorem c3_effective_equality_amended_witness :
    simpleChangedNode "k" (.str "") .null 2 ∈
      processAttributeDiffs (.obj [("k", .str "")]) (.obj [("k", .null)]) 2 ∧
    (simpleChangedNode "k" (.str "") .null 2).data.text = "~ k = \"\" -> null" ∧
    (simpleChangedNode "k" (.str "") .null 2).data.ntype = "attribute" ∧
    "k" ∉ unchangedKeys [("k", .str "")] [("k", .null)] :=
  (c3_effective_equality_amended [("k", .str "")] [("k", .null)] "k" 2
    (by decide)).1 rfl rfl


/-! ## Claim C8 -/

theorem attrArrItem_no_comment (key : String) (item : JValue) (i : Nat)
    (pre : String) (depth : Int) :
    ∀ n ∈ attrArrItem key item i pre depth, n.data.ntype ≠ "comment" := by
  intro n hn
  cases item <;> simp only [attrArrItem] at hn <;> fin_cases hn <;> simp

theorem attrArrItems_no_comment (key : String) (items : List JValue) (i : Nat)
    (pre : String) (depth : Int) :
    ∀ n ∈ attrArrItems key items i pre depth, n.data.ntype ≠ "comment" := by
  induction items generalizing i with
  | nil => simp [attrArrItems]
  | cons item rest ih =>
    intro n hn
    rw [attrArrItems] at hn
    rcases List.mem_append.mp hn with h | h
    · exact attrArrItem_no_comment key item i pre depth n h
    · exact ih (i + 1) n h

theorem attrValue_no_comment (key : String) (value : JValue) (pre : String)
    (depth : Int) :
    ∀ n ∈ attrValue key value pre depth, n.data.ntype ≠ "comment" := by
  intro n hn
  cases value with
  | arr items =>
    simp only [attrValue] at hn
    exact attrArrItems_no_comment key items 0 pre depth n hn
  | null => simp only [attrValue] at hn; fin_cases hn <;> simp
  | obj m => simp only [attrValue] at hn; fin_cases hn <;> simp
  | str s => simp only [attrValue] at hn; fin_cases hn <;> simp
  | num x => simp only [attrValue] at hn; fin_cases hn <;> simp
  | bool b => simp only [attrValue] at hn; fin_cases hn <;> simp

theorem attrFields_no_comment (fields : List (String × JValue)) (pre : String)
    (depth : Int) :
    ∀ n ∈ attrFields fields pre depth, n.data.ntype ≠ "comment" := by
  induction fields with
  | nil => simp [attrFields]
  | cons p rest ih =>
    obtain ⟨key, value⟩ := p
    intro n hn
    rw [attrFields] at hn
    rcases List.mem_append.mp hn with h | h
    · exact attrValue_no_comment key value pre depth n h
    · exact ih n h

theorem addResourceAttributes_no_comment (attributes : JValue) (pre : String)
    (depth : Int) :
    ∀ n ∈ addResourceAttributes attributes pre depth, n.data.ntype ≠ "comment" := by
  intro n hn
  cases attributes <;> simp only [addResourceAttributes] at hn
  case obj m => exact attrFields_no_comment m pre depth n hn
  all_goals simp_all

theorem unchangedChunkNodes_no_comment (key : String) (vb : JValue) (depth : Int) :
    ∀ n ∈ unchangedChunkNodes key vb depth, n.data.ntype ≠ "comment" := by
  intro n hn
  cases vb <;> simp only [unchangedChunkNodes, unchangedBlockNodes] at hn <;>
    fin_cases hn <;> simp

theorem diffValue_no_comment (key : String) (vb av : JValue) (depth : Int) :
    ∀ n ∈ diffValue key vb av depth, n.data.ntype ≠ "comment" := by
  intro n hn
  cases vb <;> cases av <;>
    simp only [diffValue, simpleChangedNode] at hn <;>
    first
    | (fin_cases hn <;> (try split_ifs) <;> simp)
    | (split_ifs at hn <;> fin_cases hn <;> simp)

theorem diffChunks_no_comment (bf af : List (String × JValue)) (depth : Int) :
    ∀ c ∈ diffChunks bf af depth, ∀ n ∈ c.2, n.data.ntype ≠ "comment" := by
  induction bf with
  | nil => simp [diffChunks]
  | cons p rest ih =>
    obtain ⟨key, vb⟩ := p
    intro c hc
    rw [diffChunks] at hc
    rcases List.mem_append.mp hc with h | h
    · cases hl : lookupField af key with
      | none =>
        simp only [hl, List.mem_singleton] at h
        subst h
        simpa using addResourceAttributes_no_comment (JValue.obj [(key, vb)]) "-" depth
      | some av =>
        simp only [hl] at h
        by_cases hj : vb.jeq av = true
        · rw [if_pos hj] at h
          simp only [List.mem_singleton] at h
          subst h
          exact unchangedChunkNodes_no_comment key vb depth
        · rw [if_neg hj] at h
          simp only [List.mem_singleton] at h
          subst h
          exact diffValue_no_comment key vb av depth
    · exact ih c h

theorem addedChunks_no_comment (af bf : List (String × JValue)) (depth : Int) :
    ∀ c ∈ addedChunks af bf depth, ∀ n ∈ c.2, n.data.ntype ≠ "comment" := by
  induction af with
  | nil => simp [addedChunks]
  | cons p rest ih =>
    obtain ⟨k, va⟩ := p
    intro c hc
    rw [addedChunks] at hc
    rcases List.mem_append.mp hc with h | h
    · cases hl : lookupField bf k with
      | some w => simp [hl] at h
      | none =>
        simp only [hl, List.mem_singleton] at h
        subst h
        simpa using addResourceAttributes_no_comment (JValue.obj [(k, va)]) "+" depth
    · exact ih c h

/-- Claim C8 (corrected), counterexample: a block with exactly one
unchanged attribute (tally = 1, non-zero) gets no synthetic comment
leaf at all — the source appends the hidden-attributes comment only
when the tally exceeds 3 (`plan.go:2128`), and there is no counted
hidden-blocks comment anywhere. -/
theorem c8_hidden_tally_counterexample :
    unchangedKeyCount [("a", .num 1), ("b", .num 2)] [("a", .num 1), ("b", .num 3)] = 1 ∧
    processAttributeDiffs (.obj [("a", .num 1), ("b", .num 2)])
        (.obj [("a", .num 1), ("b", .num 3)]) 2 =
      [TreeNode.mk { NodeData.dflt with
                     text := "~ b = 2 -> 3"
                     ntype := "attribute"
                     depth := 2
                     changeType := "update" } []] ∧
    (∀ n ∈ processAttributeDiffs (.obj [("a", .num 1), ("b", .num 2)])
        (.obj [("a", .num 1), ("b", .num 3)]) 2, n.data.ntype ≠ "comment") :=
  ⟨rfl, rfl, by decide⟩

/-- Claim C8 (amended): after processing a block's attributes the
builder appends the single synthetic comment leaf
`# (<n> unchanged attributes hidden)` exactly when the unchanged tally
`n` exceeds 3 (so not when it is 1, 2 or 3), and no other top-level
node of the diff is a comment; unchanged nested blocks instead each
receive an individual child comment `# (unchanged block hidden)`
without a count (`plan.go:2093`). -/
theorem c8_hidden_tally_amended (bf af : List (String × JValue)) (depth : Int) :
    (3 < unchangedKeyCount bf af →
      ∃ body, processAttributeDiffs (.obj bf) (.obj af) depth =
        body ++ [TreeNode.mk { NodeData.dflt with
                               text := "# (" ++ toString (unchangedKeyCount bf af) ++
                                 " unchanged attributes hidden)"
                               ntype := "comment"
                               depth := depth } []] ∧
        ∀ x ∈ body, x.data.ntype ≠ "comment") ∧
    (unchangedKeyCount bf af ≤ 3 →
      ∀ x ∈ processAttributeDiffs (.obj bf) (.obj af) depth,
        x.data.ntype ≠ "comment") := by
  have hbody : ∀ x ∈ (List.insertionSort chunkLe
      (diffChunks bf af depth ++ addedChunks af bf depth)).flatMap Prod.snd,
      x.data.ntype ≠ "comment" := by
    intro x hx
    rw [List.mem_flatMap] at hx
    obtain ⟨c, hc, hxc⟩ := hx
    rcases List.mem_append.mp ((List.perm_insertionSort chunkLe _).mem_iff.mp hc) with h | h
    · exact diffChunks_no_comment bf af depth c h x hxc
    · exact addedChunks_no_comment af bf depth c h x hxc
  constructor
  · intro hgt
    refine ⟨_, ?_, hbody⟩
    simp only [processAttributeDiffs, diffObjsAssemble]
    rw [if_pos hgt]
  · intro hle x hx
    simp only [processAttributeDiffs, diffObjsAssemble] at hx
    rw [if_neg (by omega), List.append_nil] at hx
    exact hbody x hx

/-- Witness for C8 (amended) at a concrete input with tally 4. -/
theorem c8_hidden_tally_amended_witness :
    ∃ body, processAttributeDiffs
        (.obj [("a", .num 1), ("b", .num 2), ("c", .num 3), ("d", .num 4), ("e", .num 5)])
        (.obj [("a", .num 1), ("b", .num 2), ("c", .num 3), ("d", .num 4), ("e", .num 9)]) 2 =
      body ++ [TreeNode.mk { NodeData.dflt with
                             text := "# (" ++ toString (unchangedKeyCount
                               [("a", .num 1), ("b", .num 2), ("c", .num 3), ("d", .num 4), ("e", .num 5)]
                               [("a", .num 1), ("b", .num 2), ("c", .num 3), ("d", .num 4), ("e", .num 9)]) ++
                               " unchanged attributes hidden)"
                             ntype := "comment"
                             depth := 2 } []] ∧
      ∀ x ∈ body, x.data.ntype ≠ "comment" :=
  (c8_hidden_tally_amended
    [("a", .num 1), ("b", .num 2), ("c", .num 3), ("d", .num 4), ("e", .num 5)]
    [("a", .num 1), ("b", .num 2), ("c", .num 3), ("d", .num 4), ("e", .num 9)] 2).1
    (by decide)

/-! ## Claim C6 -/

mutual
/-- The full pre-order flattening of a node, expansion flags ignored. -/
def preNode (t : TreeNode) : List TreeNode :=
  match t with
  | .mk d cs => .mk d cs :: preList cs
termination_by structural t

def preList (ts : List TreeNode) : List TreeNode :=
  match ts with
  | [] => []
  | t :: ts2 => preNode t ++ preList ts2
end

mutual
theorem visNode_expandAllNodes (t : TreeNode) :
    visNode (expandAllNodes t) = preNode (expandAllNodes t) := by
  match t with
  | .mk d cs =>
    match cs with
    | [] => simp [expandAllNodes, visNode, preNode, preList, getVisibleNodes, List.isEmpty]
    | c :: cs2 =>
      have ih := getVisibleNodes_expandAllList (c :: cs2)
      simp [expandAllNodes, visNode, preNode, List.isEmpty, ih]

theorem getVisibleNodes_expandAllList (ts : List TreeNode) :
    getVisibleNodes (expandAllList ts) = preList (expandAllList ts) := by
  match ts with
  | [] => rfl
  | t :: ts2 =>
    have ih1 := visNode_expandAllNodes t
    have ih2 := getVisibleNodes_expandAllList ts2
    simp [expandAllList, getVisibleNodes, preList, ih1, ih2]
end

mutual
theorem preNode_expandAllNodes_length (t : TreeNode) :
    (preNode (expandAllNodes t)).length = (preNode t).length := by
  match t with
  | .mk d cs =>
    match cs with
    | [] => rfl
    | c :: cs2 =>
      have ih := preList_expandAllList_length (c :: cs2)
      simp [expandAllNodes, preNode, List.isEmpty, ih]

theorem preList_expandAllList_length (ts : List TreeNode) :
    (preList (expandAllList ts)).length = (preList ts).length := by
  match ts with
  | [] => rfl
  | t :: ts2 =>
    have ih1 := preNode_expandAllNodes_length t
    have ih2 := preList_expandAllList_length ts2
    simp [expandAllList, preList, ih1, ih2]
end

theorem matchIdxAux_bounds (q : String) (l : List TreeNode) : ∀ (i x : Int),
    x ∈ matchIdxAux q l i → i ≤ x ∧ x < i + l.length := by
  induction l with
  | nil =>
    intro i x hx
    simp [matchIdxAux] at hx
  | cons t ts ih =>
    intro i x hx
    simp only [matchIdxAux, List.mem_append] at hx
    rcases hx with hx | hx
    · have hxi : x = i := by
        by_cases hc : containsSub t.data.text q <;> simp [hc] at hx
        exact hx
      subst hxi
      simp only [List.length_cons]
      push_cast
      omega
    · have hb := ih (i + 1) x hx
      simp only [List.length_cons]
      push_cast
      push_cast at hb
      omega

theorem matchIdxAux_mem_iff (q : String) (l : List TreeNode) : ∀ (i x : Int),
    x ∈ matchIdxAux q l i ↔
      ∃ j : Nat, x = i + j ∧
        ∃ t, l[j]? = some t ∧ containsSub t.data.text q = true := by
  induction l with
  | nil =>
    intro i x
    simp [matchIdxAux]
  | cons t ts ih =>
    intro i x
    simp only [matchIdxAux, List.mem_append]
    constructor
    · intro hx
      rcases hx with hx | hx
      · have hc : containsSub t.data.text q = true := by
          by_cases hc : containsSub t.data.text q
          · exact hc
          · simp [hc] at hx
        have hxi : x = i := by simp [hc] at hx; exact hx
        exact ⟨0, by simpa using hxi, t, by simp, hc⟩
      · rcases (ih (i + 1) x).mp hx with ⟨j, hj, u, hu, hcu⟩
        refine ⟨j + 1, ?_, u, by simpa using hu, hcu⟩
        push_cast
        push_cast at hj
        omega
    · rintro ⟨j, hj, u, hu, hcu⟩
      cases j with
      | zero =>
        left
        simp only [List.getElem?_cons_zero, Option.some.injEq] at hu
        subst hu
        simp [hcu]
        omega
      | succ j2 =>
        right
        refine (ih (i + 1) x).mpr ⟨j2, ?_, u, by simpa using hu, hcu⟩
        push_cast
        push_cast at hj
        omega

theorem matchIdxAux_sorted (q : String) (l : List TreeNode) : ∀ i : Int,
    List.Sorted (fun a b : Int => a < b) (matchIdxAux q l i) := by
  induction l with
  | nil =>
    intro i
    simp [matchIdxAux]
  | cons t ts ih =>
    intro i
    simp only [matchIdxAux]
    by_cases hc : containsSub t.data.text q
    · rw [if_pos hc, List.singleton_append, List.sorted_cons]
      refine ⟨?_, ih (i + 1)⟩
      intro b hb
      have := matchIdxAux_bounds q ts (i + 1) b hb
      omega
    · rw [if_neg hc]
      simpa using ih (i + 1)

theorem searchConfirm_cases (m : Model) (h : 0 < m.searchString.length) :
    (searchConfirm m).nodes = expandAllList m.nodes ∧
    (searchConfirm m).allNodes = getVisibleNodes (expandAllList m.nodes) ∧
    (searchConfirm m).searchResults =
      matchIdxAux m.searchString (getVisibleNodes (expandAllList m.nodes)) 0 ∧
    (searchConfirm m).searchMode = true ∧
    (searchConfirm m).inputSearchModel = false ∧
    (∀ c rest,
      matchIdxAux m.searchString (getVisibleNodes (expandAllList m.nodes)) 0 = c :: rest →
      (searchConfirm m).searchIndex = 0 ∧
      (searchConfirm m).cursor =
        ecvClampCursor c ((getVisibleNodes (expandAllList m.nodes)).length : Int)) := by
  unfold searchConfirm getSearchResultsF flattenNodes
  simp only []
  rw [if_pos h]
  refine ⟨?_, ?_, ?_, ?_, ?_, ?_⟩
  · split
    · split
      · rw [ensureCursorVisible_nodes]
      · rfl
    · rfl
  · split
    · split
      · rfl
      · rfl
    · rfl
  · split
    · split
      · rfl
      · rfl
    · rfl
  · split
    · split
      · rfl
      · rfl
    · rfl
  · split
    · split
      · rfl
      · rfl
    · rfl
  · intro c rest hcr
    split
    · split
      · rename_i heq
        rw [hcr] at heq
        cases heq
        constructor
        · rfl
        · rw [ensureCursorVisible_cursor]
      · rename_i heq
        rw [hcr] at heq
        cases heq
    · rename_i hlen
      rw [hcr] at hlen
      simp at hlen

/-- The two-root forest on which search is confirmed: the matching
nodes "beta" (a collapsed child, invisible before the confirm) and
"bravo" sit at indices 1 and 2 of the expanded flattening. -/
def c6Model : Model :=
  { nodes := [TreeNode.mk { NodeData.dflt with
                            text := "alpha"
                            toggleable := true }
                [TreeNode.mk { NodeData.dflt with
                               text := "beta" } []],
              TreeNode.mk { NodeData.dflt with
                            text := "bravo" } []]
    allNodes := []
    cursor := 0
    windowTop := 0
    windowHeight := 10
    horizontalOffset := 0
    width := 80
    quitting := false
    ready := true
    showHelp := false
    inputSearchModel := true
    searchMode := false
    searchString := "b"
    searchResults := []
    searchIndex := 0 }

/-- Claim C6 (confirmed): confirming search with a non-empty query
expands the entire forest — the visible flattening becomes the full
pre-order, retaining every node of the original forest — recomputes
`allNodes` as that flattening, stores as `searchResults` the strictly
increasing list of exactly those indices of the flattening whose node
text contains the query, enters search mode, and, when a match exists,
places the cursor on the first match (`plan.go:371`, `plan.go:1203`). -/
theorem c6_search_confirm (m : Model) (h : 0 < m.searchString.length) :
    (searchConfirm m).nodes = expandAllList m.nodes ∧
    getVisibleNodes (searchConfirm m).nodes = preList (searchConfirm m).nodes ∧
    (getVisibleNodes (searchConfirm m).nodes).length = (preList m.nodes).length ∧
    (searchConfirm m).allNodes = getVisibleNodes (searchConfirm m).nodes ∧
    (∀ x : Int, x ∈ (searchConfirm m).searchResults ↔
      ∃ j : Nat, x = (j : Int) ∧
        ∃ t, (getVisibleNodes (searchConfirm m).nodes)[j]? = some t ∧
          containsSub t.data.text m.searchString = true) ∧
    List.Sorted (fun a b : Int => a < b) (searchConfirm m).searchResults ∧
    (searchConfirm m).searchMode = true ∧
    (searchConfirm m).inputSearchModel = false ∧
    (∀ c rest, (searchConfirm m).searchResults = c :: rest →
      (searchConfirm m).cursor = c ∧ (searchConfirm m).searchIndex = 0) := by
  obtain ⟨h1, h2, h3, h4, h5, h6⟩ := searchConfirm_cases m h
  refine ⟨h1, ?_, ?_, ?_, ?_, ?_, h4, h5, ?_⟩
  · rw [h1]
    exact getVisibleNodes_expandAllList m.nodes
  · rw [h1, getVisibleNodes_expandAllList m.nodes, preList_expandAllList_length]
  · rw [h2, h1]
  · intro x
    rw [h3, h1, matchIdxAux_mem_iff]
    simp
  · rw [h3]
    exact matchIdxAux_sorted m.searchString (getVisibleNodes (expandAllList m.nodes)) 0
  · intro c rest hcr
    rw [h3] at hcr
    obtain ⟨hsi, hcu⟩ := h6 c rest hcr
    obtain ⟨hb1, hb2⟩ := matchIdxAux_bounds m.searchString
      (getVisibleNodes (expandAllList m.nodes)) 0 c
      (by rw [hcr]; exact List.mem_cons_self c rest)
    refine ⟨?_, hsi⟩
    rw [hcu]
    exact ecvClampCursor_eq_self c _ (by omega) (by omega)

/-- Witness for C6 at the concrete model `c6Model`. -/
theorem c6_search_confirm_witness :
    0 < c6Model.searchString.length ∧
    ((searchConfirm c6Model).nodes = expandAllList c6Model.nodes ∧
    getVisibleNodes (searchConfirm c6Model).nodes = preList (searchConfirm c6Model).nodes ∧
    (getVisibleNodes (searchConfirm c6Model).nodes).length = (preList c6Model.nodes).length ∧
    (searchConfirm c6Model).allNodes = getVisibleNodes (searchConfirm c6Model).nodes ∧
    (∀ x : Int, x ∈ (searchConfirm c6Model).searchResults ↔
      ∃ j : Nat, x = (j : Int) ∧
        ∃ t, (getVisibleNodes (searchConfirm c6Model).nodes)[j]? = some t ∧
          containsSub t.data.text c6Model.searchString = true) ∧
    List.Sorted (fun a b : Int => a < b) (searchConfirm c6Model).searchResults ∧
    (searchConfirm c6Model).searchMode = true ∧
    (searchConfirm c6Model).inputSearchModel = false ∧
    (∀ c rest, (searchConfirm c6Model).searchResults = c :: rest →
      (searchConfirm c6Model).cursor = c ∧ (searchConfirm c6Model).searchIndex = 0)) :=
  ⟨by decide, c6_search_confirm c6Model (by decide)⟩

/-! ## Claim C9 -/

theorem visNode_eq_cons (t : TreeNode) :
    visNode t = t :: (if t.data.expanded then getVisibleNodes t.children else []) := by
  match t with
  | .mk d cs => rfl

mutual
theorem length_visNode (t : TreeNode) : (visNode t).length = visSize t := by
  match t with
  | .mk d cs =>
    have ih := length_getVisibleNodes cs
    cases hd : d.expanded <;> simp [visNode, visSize, hd, ih] <;> omega

theorem length_getVisibleNodes (ts : List TreeNode) :
    (getVisibleNodes ts).length = visSizeList ts := by
  match ts with
  | [] => rfl
  | t :: ts2 =>
    have ih1 := length_visNode t
    have ih2 := length_getVisibleNodes ts2
    simp [getVisibleNodes, visSizeList, ih1, ih2]
end

mutual
theorem updInside_get (t : TreeNode) (k : Nat) (f : TreeNode → TreeNode) (u : TreeNode)
    (hk : (visNode t)[k + 1]? = some u) :
    (visNode (updInside t k f))[k + 1]? = some (f u) := by
  match t with
  | .mk d cs =>
    cases hd : d.expanded with
    | false => simp [visNode, hd] at hk
    | true =>
      simp only [visNode, hd, if_true, List.getElem?_cons_succ] at hk
      have ih := updateAtVis_get cs k f u hk
      simp only [updInside, hd, if_true, visNode, List.getElem?_cons_succ]
      exact ih

theorem updateAtVis_get (ts : List TreeNode) (k : Nat) (f : TreeNode → TreeNode) (u : TreeNode)
    (hk : (getVisibleNodes ts)[k]? = some u) :
    (getVisibleNodes (updateAtVis ts k f))[k]? = some (f u) := by
  match ts with
  | [] => simp [getVisibleNodes] at hk
  | t :: ts2 =>
    by_cases h0 : k = 0
    · subst h0
      rw [show getVisibleNodes (t :: ts2) = visNode t ++ getVisibleNodes ts2 from rfl,
        visNode_eq_cons] at hk
      simp only [List.cons_append, List.getElem?_cons_zero, Option.some.injEq] at hk
      subst hk
      rw [show updateAtVis (t :: ts2) 0 f = f t :: ts2 from rfl,
        show getVisibleNodes (f t :: ts2) = visNode (f t) ++ getVisibleNodes ts2 from rfl,
        visNode_eq_cons]
      simp
    · by_cases hsz : k < visSize t
      · obtain ⟨k2, rfl⟩ : ∃ k2, k = k2 + 1 := ⟨k - 1, by omega⟩
        have hvk : (visNode t)[k2 + 1]? = some u := by
          rw [show getVisibleNodes (t :: ts2) = visNode t ++ getVisibleNodes ts2 from rfl,
            List.getElem?_append_left (by rw [length_visNode]; omega)] at hk
          exact hk
        have ih := updInside_get t k2 f u hvk
        have hlt : k2 + 1 < (visNode (updInside t k2 f)).length := by
          by_contra hge
          rw [List.getElem?_eq_none (by omega)] at ih
          cases ih
        rw [show updateAtVis (t :: ts2) (k2 + 1) f = updInside t (k2 + 1 - 1) f :: ts2 by
              rw [updateAtVis]
              rw [if_neg (by omega), if_pos hsz]]
        rw [show updInside t (k2 + 1 - 1) f = updInside t k2 f by norm_num]
        rw [show getVisibleNodes (updInside t k2 f :: ts2) =
              visNode (updInside t k2 f) ++ getVisibleNodes ts2 from rfl,
          List.getElem?_append_left hlt]
        exact ih
      · have hlen : (visNode t).length ≤ k := by rw [length_visNode]; omega
        have hrest : (getVisibleNodes ts2)[k - visSize t]? = some u := by
          rw [show getVisibleNodes (t :: ts2) = visNode t ++ getVisibleNodes ts2 from rfl,
            List.getElem?_append_right hlen, length_visNode] at hk
          exact hk
        have ih := updateAtVis_get ts2 (k - visSize t) f u hrest
        rw [show updateAtVis (t :: ts2) k f = t :: updateAtVis ts2 (k - visSize t) f by
              rw [updateAtVis]
              rw [if_neg h0, if_neg (by omega)]]
        rw [show getVisibleNodes (t :: updateAtVis ts2 (k - visSize t) f) =
              visNode t ++ getVisibleNodes (updateAtVis ts2 (k - visSize t) f) from rfl,
          List.getElem?_append_right hlen, length_visNode]
        exact ih
end

mutual
theorem visWPNode_map_snd (t : TreeNode) :
    (visWPNode t).map Prod.snd = visNode t := by
  match t with
  | .mk d cs =>
    have ih := visWP_map_snd cs
    have hcomp : (Prod.snd ∘ fun p : List Nat × TreeNode => (0 :: p.1, p.2)) = Prod.snd := by
      funext p
      rfl
    cases hd : d.expanded <;>
      simp [visWPNode, visNode, hd, List.map_map, hcomp, ih]

theorem visWP_map_snd (ts : List TreeNode) :
    (visWP ts).map Prod.snd = getVisibleNodes ts := by
  match ts with
  | [] => rfl
  | t :: ts2 =>
    have ih1 := visWPNode_map_snd t
    have ih2 := visWP_map_snd ts2
    have hcomp : (Prod.snd ∘ fun p : List Nat × TreeNode => (bumpPath p.1, p.2)) = Prod.snd := by
      funext p
      rfl
    simp [visWP, getVisibleNodes, List.map_map, hcomp, ih1, ih2]
end

mutual
theorem visWPNode_path_ne_nil (t : TreeNode) :
    ∀ pq ∈ visWPNode t, pq.1 ≠ [] := by
  match t with
  | .mk d cs =>
    intro pq hpq
    rw [visWPNode] at hpq
    rcases List.mem_cons.mp hpq with h | h
    · subst h
      simp
    · cases hd : d.expanded
      · rw [hd] at h
        simp at h
      · rw [hd] at h
        simp only [if_true] at h
        rcases List.mem_map.mp h with ⟨q, _, rfl⟩
        simp

theorem visWP_path_ne_nil (ts : List TreeNode) :
    ∀ pq ∈ visWP ts, pq.1 ≠ [] := by
  match ts with
  | [] =>
    intro pq hpq
    simp [visWP] at hpq
  | t :: ts2 =>
    intro pq hpq
    rw [visWP] at hpq
    rcases List.mem_append.mp hpq with h | h
    · exact visWPNode_path_ne_nil t pq h
    · rcases List.mem_map.mp h with ⟨q, hq, rfl⟩
      have := visWP_path_ne_nil ts2 q hq
      match hq1 : q.1 with
      | [] => exact absurd hq1 this
      | j :: r =>
        simp [bumpPath, hq1]
end

mutual
theorem visWPNode_parent_mem (t : TreeNode) :
    ∀ pq ∈ visWPNode t, 2 ≤ pq.1.length →
      ∃ u, (pq.1.dropLast, u) ∈ visWPNode t := by
  match t with
  | .mk d cs =>
    intro pq hpq hlen
    rw [visWPNode] at hpq
    rcases List.mem_cons.mp hpq with h | h
    · subst h
      simp at hlen
    · cases hd : d.expanded
      · rw [hd] at h
        simp at h
      · rw [hd] at h
        simp only [if_true] at h
        rcases List.mem_map.mp h with ⟨q, hq, rfl⟩
        have hne := visWP_path_ne_nil cs q hq
        match hq1 : q.1 with
        | [] => exact absurd hq1 hne
        | [a] =>
          refine ⟨.mk d cs, ?_⟩
          rw [visWPNode]
          simp [hq1]
        | a :: b :: r =>
          have hlen2 : 2 ≤ q.1.length := by rw [hq1]; simp
          obtain ⟨u, hu⟩ := visWP_parent_mem cs q hq hlen2
          refine ⟨u, ?_⟩
          rw [visWPNode, hd]
          simp only [if_true]
          refine List.mem_cons.mpr (Or.inr ?_)
          refine List.mem_map.mpr ⟨(q.1.dropLast, u), hu, ?_⟩
          rw [hq1]
          simp

theorem visWP_parent_mem (ts : List TreeNode) :
    ∀ pq ∈ visWP ts, 2 ≤ pq.1.length →
      ∃ u, (pq.1.dropLast, u) ∈ visWP ts := by
  match ts with
  | [] =>
    intro pq hpq
    simp [visWP] at hpq
  | t :: ts2 =>
    intro pq hpq hlen
    rw [visWP] at hpq
    rcases List.mem_append.mp hpq with h | h
    · obtain ⟨u, hu⟩ := visWPNode_parent_mem t pq h hlen
      exact ⟨u, by rw [visWP]; exact List.mem_append.mpr (Or.inl hu)⟩
    · rcases List.mem_map.mp h with ⟨q, hq, rfl⟩
      have hne := visWP_path_ne_nil ts2 q hq
      match hq1 : q.1 with
      | [] => exact absurd hq1 hne
      | [a] =>
        rw [hq1] at hlen
        simp [bumpPath] at hlen
      | a :: b :: r =>
        have hlen2 : 2 ≤ q.1.length := by rw [hq1]; simp
        obtain ⟨u, hu⟩ := visWP_parent_mem ts2 q hq hlen2
        refine ⟨u, ?_⟩
        rw [visWP]
        refine List.mem_append.mpr (Or.inr ?_)
        refine List.mem_map.mpr ⟨(q.1.dropLast, u), hu, ?_⟩
        rw [hq1]
        simp [bumpPath]
end

theorem updateNormal_space_eq (m : Model) (t : TreeNode) (h0 : 0 ≤ m.cursor)
    (ht : (getVisibleNodes m.nodes)[m.cursor.toNat]? = some t)
    (hch : 0 < t.children.length) (htog : t.data.toggleable = true) :
    (updateNormal .space m).nodes =
      updateAtVis m.nodes m.cursor.toNat toggleExpanded ∧
    (updateNormal .space m).cursor = m.cursor := by
  have hlt : m.cursor.toNat < (getVisibleNodes m.nodes).length := by
    rcases List.getElem?_eq_some_iff.mp ht with ⟨h, _⟩
    exact h
  have hcv : m.cursor < ((getVisibleNodes m.nodes).length : Int) := by omega
  have hnew := updateAtVis_get m.nodes m.cursor.toNat toggleExpanded t ht
  have hnlt : m.cursor.toNat <
      (getVisibleNodes (updateAtVis m.nodes m.cursor.toNat toggleExpanded)).length := by
    rcases List.getElem?_eq_some_iff.mp hnew with ⟨h, _⟩
    exact h
  simp only [updateNormal]
  rw [if_pos ⟨h0, hcv⟩]
  simp only [ht]
  rw [if_pos ⟨hch, htog⟩]
  rw [if_neg (by omega)]
  rw [if_neg (by omega)]
  refine ⟨ensureCursorVisible_nodes _, ?_⟩
  rw [ensureCursorVisible_cursor]
  show ecvClampCursor m.cursor
    ((getVisibleNodes (updateAtVis m.nodes m.cursor.toNat toggleExpanded)).length : Int) = m.cursor
  exact ecvClampCursor_eq_self _ _ h0 (by omega)

theorem updateNormal_backspace_collapse_eq (m : Model) (p : List Nat) (t : TreeNode)
    (h0 : 0 ≤ m.cursor)
    (hv : (visWP m.nodes)[m.cursor.toNat]? = some (p, t))
    (hexp : t.data.expanded = true) (hch : 0 < t.children.length) :
    (updateNormal .backspace m).nodes =
      updateAtVis m.nodes m.cursor.toNat setCollapsed ∧
    (updateNormal .backspace m).cursor = m.cursor ∧
    (updateNormal .backspace m).horizontalOffset = 0 := by
  have hlt : m.cursor.toNat < (visWP m.nodes).length := by
    rcases List.getElem?_eq_some_iff.mp hv with ⟨h, _⟩
    exact h
  have hcv : m.cursor < ((visWP m.nodes).length : Int) := by omega
  simp only [updateNormal]
  rw [if_pos ⟨h0, hcv⟩]
  simp only [hv]
  rw [if_pos ⟨hexp, hch⟩]
  refine ⟨?_, ?_, ?_⟩ <;> trivial

theorem updateNormal_backspace_parent_eq (m : Model) (p : List Nat) (t : TreeNode) (j : Nat)
    (h0 : 0 ≤ m.cursor)
    (hv : (visWP m.nodes)[m.cursor.toNat]? = some (p, t))
    (hno : ¬(t.data.expanded = true ∧ 0 < t.children.length))
    (hl : 2 ≤ p.length)
    (hfind : (visWP m.nodes).findIdx? (fun q => q.1 = p.dropLast) = some j) :
    (updateNormal .backspace m).cursor = (j : Int) ∧
    (updateNormal .backspace m).nodes = m.nodes ∧
    (updateNormal .backspace m).horizontalOffset = 0 := by
  have hlt : m.cursor.toNat < (visWP m.nodes).length := by
    rcases List.getElem?_eq_some_iff.mp hv with ⟨h, _⟩
    exact h
  have hcv : m.cursor < ((visWP m.nodes).length : Int) := by omega
  simp only [updateNormal]
  rw [if_pos ⟨h0, hcv⟩]
  simp only [hv]
  rw [if_neg hno, if_pos hl]
  simp only [hfind]
  refine ⟨?_, ?_, ?_⟩ <;> trivial

/-- A collapsed toggleable root with one child: the claim says `l`
expands it. -/
def c9Model : Model :=
  { nodes := [TreeNode.mk { NodeData.dflt with
                            text := "root"
                            toggleable := true }
                [TreeNode.mk { NodeData.dflt with
                               text := "child" } []]]
    allNodes := []
    cursor := 0
    windowTop := 0
    windowHeight := 10
    horizontalOffset := 0
    width := 80
    quitting := false
    ready := true
    showHelp := false
    inputSearchModel := false
    searchMode := false
    searchString := ""
    searchResults := []
    searchIndex := 0 }

/-- An expanded toggleable root with one child and horizontal offset
30: the claim says `left` collapses it. -/
def c9ModelB : Model :=
  { c9Model with
    nodes := [TreeNode.mk { NodeData.dflt with
                            text := "root"
                            expanded := true
                            toggleable := true }
                [TreeNode.mk { NodeData.dflt with
                               text := "child" } []]]
    horizontalOffset := 30 }

/-- Claim C9 (corrected), counterexample: with the cursor on a
collapsed toggleable node with a child, `l` and `right` only scroll
horizontally (`plan.go:164`) and leave the node collapsed; with the
cursor on an expanded node, `left` and `h` only scroll back
(`plan.go:171`) and leave the node expanded — none of the four keys
touches the forest. -/
theorem c9_key_bindings_counterexample :
    ((getVisibleNodes c9Model.nodes)[0]?.map (fun t => t.data.expanded)) = some false ∧
    ((getVisibleNodes c9Model.nodes)[0]?.map (fun t => t.data.toggleable)) = some true ∧
    ((getVisibleNodes c9Model.nodes)[0]?.map (fun t => t.children.length)) = some 1 ∧
    updateNormal .keyL c9Model = { c9Model with
                                   horizontalOffset := 10 } ∧
    updateNormal .right c9Model = { c9Model with
                                    horizontalOffset := 10 } ∧
    ((getVisibleNodes c9ModelB.nodes)[0]?.map (fun t => t.data.expanded)) = some true ∧
    updateNormal .left c9ModelB = { c9ModelB with
                                    horizontalOffset := 20 } ∧
    updateNormal .keyH c9ModelB = { c9ModelB with
                                    horizontalOffset := 20 } :=
  ⟨rfl, rfl, rfl, rfl, rfl, rfl, rfl, rfl⟩

/-- Claim C9 (amended): in Normal mode `right` and `l` scroll the view
right by 10 columns (capped at 500) and `left` and `h` scroll it left
by 10 (floored at 0) — none of the four touches the forest or the
cursor.  Expansion toggling is the space key alone: when the current
node has children and is toggleable it is toggled in place and the
cursor stays on it.  Collapse-or-move-to-parent is the backspace key
alone: it resets the horizontal offset, collapses an expanded current
node with children in place, and otherwise, when the current node's
path has a parent, jumps the cursor to the first visible node carrying
the parent path (`plan.go:164`, `plan.go:171`, `plan.go:178`,
`plan.go:204`). -/
theorem c9_key_bindings_amended (m : Model) :
    updateNormal .right m =
      { m with
        horizontalOffset :=
          if m.horizontalOffset + 10 > 500 then 500 else m.horizontalOffset + 10 } ∧
    updateNormal .keyL m = updateNormal .right m ∧
    updateNormal .left m =
      { m with
        horizontalOffset :=
          if m.horizontalOffset - 10 < 0 then 0 else m.horizontalOffset - 10 } ∧
    updateNormal .keyH m = updateNormal .left m ∧
    (∀ t, 0 ≤ m.cursor →
      (getVisibleNodes m.nodes)[m.cursor.toNat]? = some t →
      0 < t.children.length → t.data.toggleable = true →
      (getVisibleNodes (updateNormal .space m).nodes)[m.cursor.toNat]? =
        some (toggleExpanded t) ∧
      (updateNormal .space m).cursor = m.cursor) ∧
    (∀ p t, 0 ≤ m.cursor →
      (visWP m.nodes)[m.cursor.toNat]? = some (p, t) →
      t.data.expanded = true → 0 < t.children.length →
      (getVisibleNodes (updateNormal .backspace m).nodes)[m.cursor.toNat]? =
        some (setCollapsed t) ∧
      (updateNormal .backspace m).cursor = m.cursor ∧
      (updateNormal .backspace m).horizontalOffset = 0) ∧
    (∀ p t, 0 ≤ m.cursor →
      (visWP m.nodes)[m.cursor.toNat]? = some (p, t) →
      ¬(t.data.expanded = true ∧ 0 < t.children.length) →
      2 ≤ p.length →
      ∃ j : Nat,
        (visWP m.nodes).findIdx? (fun q => q.1 = p.dropLast) = some j ∧
        (updateNormal .backspace m).cursor = (j : Int) ∧
        (updateNormal .backspace m).nodes = m.nodes ∧
        (updateNormal .backspace m).horizontalOffset = 0 ∧
        ∃ u, (visWP m.nodes)[j]? = some (p.dropLast, u)) := by
  refine ⟨rfl, rfl, rfl, rfl, ?_, ?_, ?_⟩
  · intro t h0 ht hch htog
    obtain ⟨hn, hc⟩ := updateNormal_space_eq m t h0 ht hch htog
    refine ⟨?_, hc⟩
    rw [hn]
    exact updateAtVis_get m.nodes m.cursor.toNat toggleExpanded t ht
  · intro p t h0 hv hexp hch
    have hvt : (getVisibleNodes m.nodes)[m.cursor.toNat]? = some t := by
      rw [← visWP_map_snd m.nodes, List.getElem?_map, hv]
      rfl
    obtain ⟨hn, hc, hh⟩ := updateNormal_backspace_collapse_eq m p t h0 hv hexp hch
    refine ⟨?_, hc, hh⟩
    rw [hn]
    exact updateAtVis_get m.nodes m.cursor.toNat setCollapsed t hvt
  · intro p t h0 hv hno hl
    have hmem : (p, t) ∈ visWP m.nodes := by
      rcases List.getElem?_eq_some_iff.mp hv with ⟨hlt, heq⟩
      rw [← heq]
      exact List.getElem_mem hlt
    obtain ⟨u, hu⟩ := visWP_parent_mem m.nodes (p, t) hmem hl
    have hfind : (visWP m.nodes).findIdx? (fun q => q.1 = p.dropLast) =
        some ((visWP m.nodes).findIdx (fun q => q.1 = p.dropLast)) :=
      List.findIdx?_eq_some_of_exists ⟨(p.dropLast, u), hu, by simp⟩
    obtain ⟨hc, hn, hh⟩ := updateNormal_backspace_parent_eq m p t
      ((visWP m.nodes).findIdx (fun q => q.1 = p.dropLast)) h0 hv hno hl hfind
    refine ⟨(visWP m.nodes).findIdx (fun q => q.1 = p.dropLast), hfind, hc, hn, hh, ?_⟩
    rcases List.findIdx?_eq_some_iff_getElem.mp hfind with ⟨hjl, hpj, _⟩
    have hfst : ((visWP m.nodes).get ⟨(visWP m.nodes).findIdx
        (fun q => q.1 = p.dropLast), hjl⟩).1 = p.dropLast := by
      simpa using hpj
    refine ⟨((visWP m.nodes).get ⟨(visWP m.nodes).findIdx
        (fun q => q.1 = p.dropLast), hjl⟩).2, ?_⟩
    rw [List.getElem?_eq_some_iff]
    exact ⟨hjl, Prod.ext hfst rfl⟩

/-- The model for the parent-jump witness: an expanded root with one
collapsed leaf child, the cursor on the child. -/
def c9Leaf : TreeNode :=
  TreeNode.mk { NodeData.dflt with
                text := "leaf"
                toggleable := true } []

def c9WModel : Model :=
  { c9Model with
    nodes := [TreeNode.mk { NodeData.dflt with
                            text := "root"
                            expanded := true
                            toggleable := true } [c9Leaf]]
    cursor := 1
    horizontalOffset := 40 }

/-- Witness for C9 (amended): the backspace parent jump at `c9WModel`. -/
theorem c9_key_bindings_amended_witness :
    0 ≤ c9WModel.cursor ∧
    (visWP c9WModel.nodes)[c9WModel.cursor.toNat]? = some ([0, 0], c9Leaf) ∧
    ¬(c9Leaf.data.expanded = true ∧ 0 < c9Leaf.children.length) ∧
    2 ≤ ([0, 0] : List Nat).length ∧
    (∃ j : Nat,
      (visWP c9WModel.nodes).findIdx? (fun q => q.1 = ([0, 0] : List Nat).dropLast) = some j ∧
      (updateNormal .backspace c9WModel).cursor = (j : Int) ∧
      (updateNormal .backspace c9WModel).nodes = c9WModel.nodes ∧
      (updateNormal .backspace c9WModel).horizontalOffset = 0 ∧
      ∃ u, (visWP c9WModel.nodes)[j]? = some (([0, 0] : List Nat).dropLast, u)) :=
  ⟨by decide, by rfl, by decide, by decide,
    (c9_key_bindings_amended c9WModel).2.2.2.2.2.2 [0, 0] c9Leaf (by decide) (by rfl)
      (by decide) (by decide)⟩

/-! ## Claim C2 -/

theorem strAppend_assoc (a b c : String) : a ++ b ++ c = a ++ (b ++ c) := by
  cases a with
  | mk la =>
    cases b with
    | mk lb =>
      cases c with
      | mk lc =>
        show String.mk (la ++ lb ++ lc) = String.mk (la ++ (lb ++ lc))
        rw [List.append_assoc]

theorem hasPre_mono (p : List Char) : ∀ (l r : List Char),
    hasPre p l = true → hasPre p (l ++ r) = true := by
  induction p with
  | nil =>
    intro l r _
    rfl
  | cons c cs ih =>
    intro l r h
    cases l with
    | nil => simp [hasPre] at h
    | cons d ds =>
      simp only [hasPre, Bool.and_eq_true] at h
      simp only [List.cons_append, hasPre, Bool.and_eq_true]
      exact ⟨h.1, ih ds r h.2⟩

theorem hasPreStr_self (p : String) : hasPreStr p p = true := by
  unfold hasPreStr
  induction p.toList with
  | nil => rfl
  | cons c cs ih => simp [hasPre, ih]

theorem hasPreStr_mono (s t p : String) (h : hasPreStr s p = true) :
    hasPreStr (s ++ t) p = true := by
  unfold hasPreStr at h ⊢
  rw [toList_append]
  exact hasPre_mono _ _ _ h

theorem tallyCounts_eq_countP (l : List RCInfo) :
    tallyCounts l =
      (l.countP (fun i => i.changeType = "create" || i.changeType = "replace"),
       l.countP (fun i => i.changeType = "update"),
       l.countP (fun i => i.changeType = "destroy" || i.changeType = "replace")) := by
  induction l with
  | nil => rfl
  | cons i rest ih =>
    simp only [tallyCounts, ih, List.countP_cons]
    split_ifs <;> simp_all <;> omega

theorem foldl_insertOver_forall_mem {α β : Type} {P : String × α → Prop}
    (f : β → Option (String × α)) (items : List β)
    (hf : ∀ b ∈ items, ∀ p, f b = some p → P p) :
    ∀ m, (∀ p ∈ m, P p) →
      ∀ p ∈ items.foldl (insStep f) m, P p := by
  induction items with
  | nil => intro m hm; simpa using hm
  | cons it rest ih =>
    intro m hm
    simp only [List.foldl_cons]
    have hf2 : ∀ b ∈ rest, ∀ p, f b = some p → P p :=
      fun b hb => hf b (List.mem_cons_of_mem _ hb)
    cases hfi : f it with
    | none =>
      rw [show insStep f m it = m by rw [insStep, hfi]]
      exact ih hf2 m hm
    | some kv =>
      rw [show insStep f m it = insertOver m kv.1 kv.2 by rw [insStep, hfi]]
      exact ih hf2 _ (insertOver_forall hm (hf it (List.mem_cons_self _ _) kv hfi))

theorem driftEntry_props (c : JValue) (k : String) (n : TreeNode)
    (h : driftEntry c = some (k, n)) :
    hasPreStr n.data.text ("# " ++ k ++ " has drifted (") = true ∧
    n.data.ntype = "resource" ∧ n.data.isDrifted = true := by
  cases c with
  | obj driftMap =>
    simp only [driftEntry] at h
    cases hch : lookupField driftMap "change" with
    | none => simp [hch] at h
    | some cv =>
      cases cv <;> simp only [hch] at h <;> try simp at h
      rename_i change
      obtain ⟨hk, hn⟩ := h
      subst hk
      subst hn
      refine ⟨?_, rfl, rfl⟩
      exact hasPreStr_mono _ _ _ (hasPreStr_mono _ _ _ (hasPreStr_self _))
  | null => simp [driftEntry] at h
  | bool b => simp [driftEntry] at h
  | num x => simp [driftEntry] at h
  | str s => simp [driftEntry] at h
  | arr xs => simp [driftEntry] at h

theorem resourceChangeEntry_props (c : JValue) (i : RCInfo)
    (h : resourceChangeEntry c = some i) :
    hasPreStr i.node.data.text ("# " ++ i.address ++ " will be ") = true ∧
    i.node.data.ntype = "resource" := by
  cases c with
  | obj changeMap =>
    simp only [resourceChangeEntry] at h
    cases hch : lookupField changeMap "change" with
    | none => simp [hch] at h
    | some cv =>
      cases cv with
      | obj changeDetails =>
        simp only [hch] at h
        cases hac : lookupField changeDetails "actions" with
        | none => simp [hac] at h
        | some av =>
          cases av <;> simp only [hac] at h <;> try simp at h
          rename_i xs
          obtain ⟨hxs, hnoop, hbig⟩ := h
          subst hbig
          refine ⟨?_, rfl⟩
          simp only [TreeNode.data_mk]
          split_ifs <;>
            first
              | exact hasPreStr_mono _ _ _ (hasPreStr_mono _ _ _ (hasPreStr_mono _ _ _
                  (hasPreStr_mono _ _ _ (hasPreStr_self _))))
              | exact hasPreStr_mono _ _ _ (hasPreStr_self _)
      | null => simp [hch] at h
      | bool b => simp [hch] at h
      | num x => simp [hch] at h
      | str s => simp [hch] at h
      | arr a2 => simp [hch] at h
  | null => simp [resourceChangeEntry] at h
  | bool b => simp [resourceChangeEntry] at h
  | num x => simp [resourceChangeEntry] at h
  | str s => simp [resourceChangeEntry] at h
  | arr xs => simp [resourceChangeEntry] at h

theorem driftSection_cases (plan : List (String × JValue)) :
    (driftSection plan).1 = [] ∨
    ∃ dd : List (String × TreeNode),
      (driftSection plan).1 = dd.map Prod.snd ++ [separatorNode] ∧
      List.Sorted strLe (dd.map Prod.fst) ∧
      ∀ pn ∈ dd, hasPreStr pn.2.data.text ("# " ++ pn.1 ++ " has drifted (") = true ∧
        pn.2.data.ntype = "resource" ∧ pn.2.data.isDrifted = true := by
  cases hd : lookupField plan "resource_drift" with
  | none =>
    left
    simp [driftSection, hd]
  | some v =>
    cases v with
    | arr items =>
      by_cases hemp : items.isEmpty
      · left
        simp [driftSection, hd, hemp]
      · right
        simp only [driftSection, hd]
        rw [if_neg hemp]
        set dres := items.foldl (insStep driftEntry) [] with hdres
        refine ⟨(sortStrings (dres.map Prod.fst)).filterMap
          (fun p => (lookupA dres p).map (fun n => (p, n))), ?_, ?_, ?_⟩
        · rw [filterMap_pair_map_snd]
        · exact List.Pairwise.sublist (filterMap_pair_map_fst_sublist _ _)
            (List.sorted_insertionSort strLe _)
        · intro pn hpn
          rcases List.mem_filterMap.mp hpn with ⟨p, hp, hmap⟩
          cases hl : lookupA dres p with
          | none => simp [hl] at hmap
          | some n =>
            simp only [hl, Option.map_some', Option.some.injEq] at hmap
            subst hmap
            have hP : ∀ pr ∈ dres, ∃ c, driftEntry c = some pr := by
              rw [hdres]
              refine foldl_insertOver_forall driftEntry items ?_ [] ?_
              · exact fun b pr hb => ⟨b, hb⟩
              · simp
            obtain ⟨c, hc⟩ := hP (p, n) (lookupA_mem hl)
            exact driftEntry_props c p n hc
    | null =>
      left
      simp [driftSection, hd]
    | bool b =>
      left
      simp [driftSection, hd]
    | num x =>
      left
      simp [driftSection, hd]
    | str s =>
      left
      simp [driftSection, hd]
    | obj o =>
      left
      simp [driftSection, hd]

theorem pickNonMoved_pairs (resources : List (String × RCInfo)) (paths : List String) :
    paths.filterMap (pickNonMoved resources) =
      (paths.filterMap (fun p =>
        ((lookupA resources p).bind (fun i => if i.wasMoved then none else some i)).map
          (fun n => (p, n)))).map (fun q => q.2.node) := by
  rw [List.map_filterMap]
  apply List.filterMap_congr
  intro p hp
  rw [pickNonMoved]
  cases hl : lookupA resources p with
  | none => simp
  | some i => cases hw : i.wasMoved <;> simp [hw]

theorem pickMoved_pairs (resources : List (String × RCInfo)) (paths : List String) :
    paths.filterMap (pickMoved resources) =
      (paths.filterMap (fun p =>
        ((lookupA resources p).bind (fun i => if i.wasMoved then some i else none)).map
          (fun n => (p, n)))).map (fun q => q.2.node) := by
  rw [List.map_filterMap]
  apply List.filterMap_congr
  intro p hp
  rw [pickMoved]
  cases hl : lookupA resources p with
  | none => simp
  | some i => cases hw : i.wasMoved <;> simp [hw]

theorem resources_invariant (rcs : List JValue) :
    ∀ q ∈ (rcs.filterMap resourceChangeEntry).foldl
        (insStep (fun i => some (i.address, i))) [],
      q.1 = q.2.address ∧ ∃ c, resourceChangeEntry c = some q.2 := by
  refine foldl_insertOver_forall_mem _ _ ?_ [] ?_
  · intro b hb q hq
    obtain rfl : (b.address, b) = q := by simpa using hq
    refine ⟨rfl, ?_⟩
    rcases List.mem_filterMap.mp hb with ⟨c, _, hce⟩
    exact ⟨c, hce⟩
  · simp

/-- Claim C2 (amended): when `resource_changes` decodes to a list, the
root sequence is the drift section (address-sorted drifted roots and
one trailing separator when drift is present, nothing otherwise), then
the non-moved planned resources sorted by address, then the moved
planned resources sorted by address, and finally one summary root
whose text is the `Plan:` line in which a replace counts towards both
the creates and the destroys tallies (`plan.go:1682`, `plan.go:1619`).
When `resource_changes` is absent or not a list, the forest instead
ends in a `No changes` info root and carries no summary node. -/
theorem c2_root_ordering_amended (plan : List (String × JValue)) (rcs : List JValue)
    (hrc : lookupField plan "resource_changes" = some (.arr rcs)) :
    ∃ dn dm : List (String × RCInfo),
      parseTerraformPlanJSONOk plan =
        (driftSection plan).1 ++ dn.map (fun q => q.2.node) ++ dm.map (fun q => q.2.node) ++
        [TreeNode.mk { NodeData.dflt with
                       text := summaryText
                         ((rcs.filterMap resourceChangeEntry).countP
                           (fun i => i.changeType = "create" || i.changeType = "replace"))
                         ((rcs.filterMap resourceChangeEntry).countP
                           (fun i => i.changeType = "update"))
                         ((rcs.filterMap resourceChangeEntry).countP
                           (fun i => i.changeType = "destroy" || i.changeType = "replace"))
                         ((rcs.filterMap resourceChangeEntry).countP (fun i => i.wasMoved))
                         (driftSection plan).2
                       expanded := true
                       ntype := "summary"
                       depth := 0 } []] ∧
      List.Sorted strLe (dn.map Prod.fst) ∧
      List.Sorted strLe (dm.map Prod.fst) ∧
      (∀ q ∈ dn, q.2.wasMoved = false ∧ q.1 = q.2.address ∧
        hasPreStr q.2.node.data.text ("# " ++ q.1 ++ " will be ") = true ∧
        q.2.node.data.ntype = "resource") ∧
      (∀ q ∈ dm, q.2.wasMoved = true ∧ q.1 = q.2.address ∧
        hasPreStr q.2.node.data.text ("# " ++ q.1 ++ " will be ") = true ∧
        q.2.node.data.ntype = "resource") ∧
      ((driftSection plan).1 = [] ∨
        ∃ dd : List (String × TreeNode),
          (driftSection plan).1 = dd.map Prod.snd ++ [separatorNode] ∧
          List.Sorted strLe (dd.map Prod.fst) ∧
          ∀ pn ∈ dd, hasPreStr pn.2.data.text ("# " ++ pn.1 ++ " has drifted (") = true ∧
            pn.2.data.ntype = "resource" ∧ pn.2.data.isDrifted = true) := by
  refine ⟨(sortStrings (((rcs.filterMap resourceChangeEntry).foldl
        (insStep (fun i => some (i.address, i))) []).map Prod.fst)).filterMap
      (fun p =>
        ((lookupA ((rcs.filterMap resourceChangeEntry).foldl
            (insStep (fun i => some (i.address, i))) []) p).bind
          (fun i => if i.wasMoved then none else some i)).map (fun n => (p, n))),
    (sortStrings (((rcs.filterMap resourceChangeEntry).foldl
        (insStep (fun i => some (i.address, i))) []).map Prod.fst)).filterMap
      (fun p =>
        ((lookupA ((rcs.filterMap resourceChangeEntry).foldl
            (insStep (fun i => some (i.address, i))) []) p).bind
          (fun i => if i.wasMoved then some i else none)).map (fun n => (p, n))),
    ?_, ?_, ?_, ?_, ?_, ?_⟩
  · simp only [parseTerraformPlanJSONOk, hrc, tallyCounts_eq_countP]
    rw [pickNonMoved_pairs, pickMoved_pairs]
  · exact List.Pairwise.sublist (filterMap_pair_map_fst_sublist _ _)
      (List.sorted_insertionSort strLe _)
  · exact List.Pairwise.sublist (filterMap_pair_map_fst_sublist _ _)
      (List.sorted_insertionSort strLe _)
  · intro q hq
    rcases List.mem_filterMap.mp hq with ⟨p, hp, hmap⟩
    cases hl : lookupA ((rcs.filterMap resourceChangeEntry).foldl
        (insStep (fun i => some (i.address, i))) []) p with
    | none => rw [hl] at hmap; simp at hmap
    | some i =>
      rw [hl] at hmap
      cases hw : i.wasMoved with
      | true => simp [hw] at hmap
      | false =>
        simp only [hw, Bool.false_eq_true, if_false, Option.some_bind,
          Option.map_some', Option.some.injEq] at hmap
        subst hmap
        obtain ⟨ha, c, hc⟩ := resources_invariant rcs (p, i) (lookupA_mem hl)
        obtain ⟨htext, hntype⟩ := resourceChangeEntry_props c i hc
        refine ⟨hw, ha, ?_, hntype⟩
        have ha2 : p = i.address := ha
        rw [show ((p, i) : String × RCInfo).1 = p from rfl, ha2]
        exact htext
  · intro q hq
    rcases List.mem_filterMap.mp hq with ⟨p, hp, hmap⟩
    cases hl : lookupA ((rcs.filterMap resourceChangeEntry).foldl
        (insStep (fun i => some (i.address, i))) []) p with
    | none => rw [hl] at hmap; simp at hmap
    | some i =>
      rw [hl] at hmap
      cases hw : i.wasMoved with
      | false => simp [hw] at hmap
      | true =>
        simp only [hw, if_true, Option.some_bind,
          Option.map_some', Option.some.injEq] at hmap
        subst hmap
        obtain ⟨ha, c, hc⟩ := resources_invariant rcs (p, i) (lookupA_mem hl)
        obtain ⟨htext, hntype⟩ := resourceChangeEntry_props c i hc
        refine ⟨hw, ha, ?_, hntype⟩
        have ha2 : p = i.address := ha
        rw [show ((p, i) : String × RCInfo).1 = p from rfl, ha2]
        exact htext
  · exact driftSection_cases plan

/-- Claim C2 (corrected), counterexample: the empty JSON object
decodes, but `resource_changes` is absent, so the built forest is the
single `No changes` info root — no summary node is emitted at all,
refuting "for every decodable plan input … finally exactly one summary
node" (`plan.go:1717`). -/
theorem c2_root_ordering_counterexample :
    parseTerraformPlanJSON (Except.ok []) =
      [TreeNode.mk { NodeData.dflt with
                     text := "No changes. Infrastructure is up-to-date."
                     expanded := true
                     ntype := "info"
                     depth := 0 } []] ∧
    ∀ t ∈ parseTerraformPlanJSON (Except.ok []), t.data.ntype ≠ "summary" := by
  refine ⟨rfl, ?_⟩
  decide

/-- A decoded plan with a single create-classified resource change. -/
def c2Changes : List JValue :=
  [JValue.obj
    [("address", JValue.str "null_resource.example"),
     ("type", JValue.str "null_resource"),
     ("mode", JValue.str "managed"),
     ("change", JValue.obj
       [("actions", JValue.arr [JValue.str "create"]),
        ("after", JValue.obj [("id", JValue.str "x")])])]]

def c2Plan : List (String × JValue) :=
  [("resource_changes", JValue.arr c2Changes)]

/-- Witness for C2 (amended) at the concrete plan `c2Plan`. -/
theorem c2_root_ordering_amended_witness :
    lookupField c2Plan "resource_changes" = some (JValue.arr c2Changes) ∧
    (∃ dn dm : List (String × RCInfo),
      parseTerraformPlanJSONOk c2Plan =
        (driftSection c2Plan).1 ++ dn.map (fun q => q.2.node) ++ dm.map (fun q => q.2.node) ++
        [TreeNode.mk { NodeData.dflt with
                       text := summaryText
                         ((c2Changes.filterMap resourceChangeEntry).countP
                           (fun i => i.changeType = "create" || i.changeType = "replace"))
                         ((c2Changes.filterMap resourceChangeEntry).countP
                           (fun i => i.changeType = "update"))
                         ((c2Changes.filterMap resourceChangeEntry).countP
                           (fun i => i.changeType = "destroy" || i.changeType = "replace"))
                         ((c2Changes.filterMap resourceChangeEntry).countP (fun i => i.wasMoved))
                         (driftSection c2Plan).2
                       expanded := true
                       ntype := "summary"
                       depth := 0 } []] ∧
      List.Sorted strLe (dn.map Prod.fst) ∧
      List.Sorted strLe (dm.map Prod.fst) ∧
      (∀ q ∈ dn, q.2.wasMoved = false ∧ q.1 = q.2.address ∧
        hasPreStr q.2.node.data.text ("# " ++ q.1 ++ " will be ") = true ∧
        q.2.node.data.ntype = "resource") ∧
      (∀ q ∈ dm, q.2.wasMoved = true ∧ q.1 = q.2.address ∧
        hasPreStr q.2.node.data.text ("# " ++ q.1 ++ " will be ") = true ∧
        q.2.node.data.ntype = "resource") ∧
      ((driftSection c2Plan).1 = [] ∨
        ∃ dd : List (String × TreeNode),
          (driftSection c2Plan).1 = dd.map Prod.snd ++ [separatorNode] ∧
          List.Sorted strLe (dd.map Prod.fst) ∧
          ∀ pn ∈ dd, hasPreStr pn.2.data.text ("# " ++ pn.1 ++ " has drifted (") = true ∧
            pn.2.data.ntype = "resource" ∧ pn.2.data.isDrifted = true)) :=
  ⟨rfl, c2_root_ordering_amended c2Plan c2Changes rfl⟩
